import Mathlib

/-!
# FindThePair: best-result store, card layout generator and connection handler

A shallow embedding of `internal/websocket/websocket.go`.

* Go `int` values (`Clicks`, `Time`, card values, loop bounds) are `Int`; the
  store only compares them and the generator only handles values below 13, so
  no operation on them can leave the 64-bit range.
* The `int64` accumulator of `StringToInt64` wraps explicitly (`wrapInt64`).
* The global `results` map is passed explicitly: a `Store` sends a level
  identifier to its entry, `none` when the key is absent.  `updateBestResult`
  runs under `resultsMutex`, so a call is one atomic step of this sequential
  model.  `log.Printf` calls leave the state untouched and are omitted.
* Run-time panics (integer division by zero, index out of range, `Intn` with a
  non-positive bound) are values of `Fault` returned through `Except`.
* `math/rand` is the Go standard library; the generator takes the
  pseudo-random source as a parameter (`Rand`).
* For the determinism of the generator, the function is also embedded as a step
  of the process state (`Process`: the `results` map, the package-level source
  of `math/rand`, and the heap of generators made by `rand.New`), so that what
  a call reads and writes is proved rather than fixed by its type.
* `encoding/json` is the Go standard library; the handler takes the two payload
  decoders as a parameter (`Codec`).  A connection is the list of envelopes
  `ws.ReadJSON` delivers before its first error; the envelopes handed to
  `ws.WriteJSON` are collected in order.
-/

namespace FindThePair

/-! ## Game state store -/

/-- Go `type Result struct { Clicks int; Time int }`. -/
structure Result where
  Clicks : Int
  Time : Int
deriving DecidableEq, Repr

/-- Go `var results = make(map[string]Result)`: level identifier to stored entry. -/
abbrev Store := String → Option Result

/-- The map created by `make(map[string]Result)`: no key present. -/
def Store.empty : Store := fun _ => none

/-- Go `results[path] = r`. -/
def Store.set (results : Store) (path : String) (r : Result) : Store :=
  fun k => if k = path then some r else results k

/-- Go `bestResult, exists := results[path]`: the zero `Result` and `false` when absent. -/
def Store.lookup (results : Store) (path : String) : Result × Bool :=
  match results path with
  | some r => (r, true)
  | none => (⟨0, 0⟩, false)

/-- Go `updateBestResult(path, clicks, time)`, with the `results` map threaded through:
returns the value the Go function returns together with the map after the call. -/
def updateBestResult (results : Store) (path : String) (clicks : Int) (time : Int) :
    Int × Store :=
  let (bestResult, «exists») := results.lookup path
  if !«exists» || decide (clicks < bestResult.Clicks) then
    (clicks, results.set path ⟨clicks, time⟩)
  else
    (bestResult.Clicks, results)

/-- Clicks stored for a level, when the level has an entry. -/
def storedClicks (results : Store) (path : String) : Option Int :=
  (results path).map Result.Clicks

/-- A run of `updateBestResult` calls on one level, submissions given as `(clicks, time)`
in call order: the returned values in call order and the final store. -/
def runUpdates (results : Store) (path : String) : List (Int × Int) → List Int × Store
  | [] => ([], results)
  | (clicks, time) :: rest =>
    let (best, results') := updateBestResult results path clicks time
    let (bests, final) := runUpdates results' path rest
    (best :: bests, final)

/-- Least clicks among the submissions of a non-empty run (specification side). -/
def minClicks : List (Int × Int) → Int
  | [] => 0
  | [s] => s.1
  | s :: rest => min s.1 (minClicks rest)

/-- First submission of a run whose clicks equal the least clicks of the run
(specification side). -/
def earliestBest (subs : List (Int × Int)) : Option Result :=
  (subs.find? (fun s => decide (s.1 = minClicks subs))).map (fun s => ⟨s.1, s.2⟩)

/-- Least clicks among a previously stored entry, if any, and two submissions
(specification side). -/
def leastOfThree (previous : Option Result) (c₁ c₂ : Int) : Int :=
  match previous with
  | none => min c₁ c₂
  | some r => min r.Clicks (min c₁ c₂)

/-- Store after two consecutive calls on one level (sequential, lock-serialised model). -/
def updateTwice (results : Store) (path : String) (c₁ t₁ c₂ t₂ : Int) : Store :=
  (updateBestResult (updateBestResult results path c₁ t₁).2 path c₂ t₂).2

/-! ## Layout generator -/

/-- Run-time panics the Go code can raise: `integer divide by zero`,
`index out of range`, and `invalid argument to Intn`. -/
inductive Fault where
  | divideByZero
  | indexOutOfRange
  | invalidArgument
deriving DecidableEq, Repr

deriving instance DecidableEq for Except

/-- Two's-complement reduction of an integer into the `int64` range
`[-2^63, 2^63)`: `2^63 = 9223372036854775808`, `2^64 = 18446744073709551616`. -/
def wrapInt64 (x : Int) : Int :=
  (x + 9223372036854775808) % 18446744073709551616 - 9223372036854775808

/-- The loop of `StringToInt64` over the remaining runes: each step evaluates
`result += int64(int(r) % totalRunes)`; Go's `%` truncates and panics on a zero divisor. -/
def sumRunes (totalRunes : Int) : List Char → Int → Except Fault Int
  | [], result => Except.ok result
  | r :: rest, result =>
    if totalRunes = 0 then Except.error Fault.divideByZero
    else sumRunes totalRunes rest (wrapInt64 (result + Int.tmod (r.toNat : Int) totalRunes))

/-- Go `StringToInt64(line)`. `line.data` is `[]rune(line)`: the code points of the
identifier (Go decodes invalid UTF-8 bytes to U+FFFD, so every rune is a scalar value). -/
def StringToInt64 (line : String) : Except Fault Int :=
  let runes := line.data
  let totalRunes : Int := (runes.length : Int)
  sumRunes totalRunes runes 0

/-- The pseudo-random source `rand.New(rand.NewSource(seed))` of Go's standard library,
taken as a parameter: `NewSource` builds the state from the seed, `draw r n` is the value
`r.Intn(n)` returns for a positive `n` together with the state it leaves. -/
structure Rand (σ : Type) where
  NewSource : Int → σ
  draw : σ → Int → Int × σ

/-- The contract of `Intn`: for a positive bound `n` the value lies in `[0, n)`. -/
def Rand.InBounds {σ : Type} (R : Rand σ) : Prop :=
  ∀ (r : σ) (n : Int), 0 < n → 0 ≤ (R.draw r n).1 ∧ (R.draw r n).1 < n

/-- Go `r.Intn(n)`: panics when `n <= 0`. -/
def Rand.Intn {σ : Type} (R : Rand σ) (r : σ) (n : Int) : Except Fault (Int × σ) :=
  if n ≤ 0 then Except.error Fault.invalidArgument else Except.ok (R.draw r n)

/-- Go index expression `xs[i]` on a slice of `int`, with its bounds check. -/
def index (xs : List Int) (i : Int) : Except Fault Int :=
  if i < 0 then Except.error Fault.indexOutOfRange
  else
    match xs[i.toNat]? with
    | some v => Except.ok v
    | none => Except.error Fault.indexOutOfRange

/-- Go `variation[i], variation[n] = variation[n], variation[i]`: both right-hand
operands are read first, then the two assignments run left to right. -/
def swap (variation : List Int) (i n : Int) : Except Fault (List Int) := do
  let vn ← index variation n
  let vi ← index variation i
  pure ((variation.set i.toNat vn).set n.toNat vi)

/-- Go `const maxCard = 5`. -/
def maxCard : Int := 5

/-- Go `countVar := []int{6, 8, 12}`. -/
def countVar : List Int := [6, 8, 12]

/-- The loop `for i := 0; i < count/2; i++ { variation = append(variation, r.Intn(maxCard)) }`
with `k` iterations left. -/
def drawHalf {σ : Type} (R : Rand σ) : Nat → σ → List Int → Except Fault (List Int × σ)
  | 0, r, variation => pure (variation, r)
  | k + 1, r, variation => do
    let (v, r') ← R.Intn r maxCard
    drawHalf R k r' (variation ++ [v])

/-- The loop `for i := len(variation) - 1; i > 0; i-- { n := r.Intn(i + 1); swap i, n }`
entered with loop variable `i`. -/
def shuffle {σ : Type} (R : Rand σ) : Nat → σ → List Int → Except Fault (List Int × σ)
  | 0, r, variation => pure (variation, r)
  | i + 1, r, variation => do
    let (n, r') ← R.Intn r (((i + 1 : Nat) : Int) + 1)
    let variation' ← swap variation ((i + 1 : Nat) : Int) n
    shuffle R i r' variation'

/-- Lines 178-191 of `generateCardVariation`: seed, source, `count`, and the half set
(`variation` before it is doubled), with the source state after the draws. -/
def halfSet {σ : Type} (R : Rand σ) (path : String) : Except Fault (List Int × σ) := do
  let seed ← StringToInt64 path
  let r := R.NewSource seed
  let (c, r) ← R.Intn r (countVar.length : Int)
  let count ← index countVar c
  if count ≥ 2 then
    drawHalf R (Int.tdiv count 2).toNat r []
  else
    pure ([], r)

/-- Go `generateCardVariation(path)`: the half set, doubled by
`variation = append(variation, variation...)`, then shuffled back to front. -/
def generateCardVariation {σ : Type} (R : Rand σ) (path : String) :
    Except Fault (List Int) := do
  let (variation, r) ← halfSet R path
  let variation := variation ++ variation
  let (variation, _) ← shuffle R (variation.length - 1) r variation
  pure variation

/-- A source whose `Intn(n)` always answers `0`. -/
def zeroSource : Rand Unit where
  NewSource := fun _ => ()
  draw := fun _ _ => (0, ())

/-- A counting source: the state starts at the seed, `Intn(n)` answers the state
modulo `n` and advances the state by one. -/
def countingSource : Rand Nat where
  NewSource := fun seed => seed.toNat
  draw := fun s n => ((s : Int) % n, s + 1)

/-- The seed as the specification words it: the sum over the code points of
`codepoint mod n`, with `n` the number of code points (specification side). -/
def seedSum (line : String) : Int :=
  ((line.data.map (fun c => c.toNat % line.data.length)).sum : Nat)

/-- The index pairs `(i, n)` the shuffle loop hands to the swap, in loop order, when
entered with loop variable `i` and source state `r` (the draws do not depend on the
slice being shuffled). -/
def swapIndices {σ : Type} (R : Rand σ) : Nat → σ → List (Int × Int)
  | 0, _ => []
  | i + 1, r =>
    (((i + 1 : Nat) : Int), (R.draw r (((i + 1 : Nat) : Int) + 1)).1)
      :: swapIndices R i (R.draw r (((i + 1 : Nat) : Int) + 1)).2

/-! ## Connection handler -/

/-- Go `type StartStateData struct { Path string }`. -/
structure StartStateData where
  Path : String
deriving DecidableEq, Repr

/-- Go `type FinishStateData struct { Clicks int; Time int }`. -/
structure FinishStateData where
  Clicks : Int
  Time : Int
deriving DecidableEq, Repr

/-- Go `type CardVariationData struct { Count int; Variation []int }`. -/
structure CardVariationData where
  Count : Int
  Variation : List Int
deriving DecidableEq, Repr

/-- Go `type ResultStateData struct { Message string }`. -/
structure ResultStateData where
  Message : String
deriving DecidableEq, Repr

/-- Go `type ClientMessage struct { State string; Data json.RawMessage }` as delivered by
`ws.ReadJSON`; `ρ` stands for `json.RawMessage`, the undecoded `"date"` payload. -/
structure ClientMessage (ρ : Type) where
  State : String
  Data : ρ

/-- The two calls `json.Unmarshal(msg.Data, &data)` of the handler (`encoding/json` is
the Go standard library, taken as a parameter): `none` stands for `err != nil`. -/
structure Codec (ρ : Type) where
  unmarshalStart : ρ → Option StartStateData
  unmarshalFinish : ρ → Option FinishStateData

/-- The `data` argument of a `sendResponse` call. -/
inductive ResponseData where
  | cardData (d : CardVariationData)
  | resultScore (d : ResultStateData)
deriving DecidableEq, Repr

/-- The envelope a `sendResponse(ws, state, data)` call writes to the socket (a write
error is only logged, so the call is recorded whether or not the write succeeds). -/
structure Response where
  State : String
  Data : ResponseData
deriving DecidableEq, Repr

/-- Go `sendResponse(ws, state, data)`: the envelope handed to `ws.WriteJSON`. -/
def sendResponse (state : String) (data : ResponseData) : Response :=
  ⟨state, data⟩

/-- The `%d` verb of `fmt.Sprintf`: decimal digits, with a leading `-` when negative. -/
def formatInt (n : Int) : String := toString n

/-- Go `fmt.Sprintf("best result is %d and your result is %d", bestResult, clicks)`. -/
def Sprintf (bestResult clicks : Int) : String :=
  "best result is " ++ formatInt bestResult ++ " and your result is " ++ formatInt clicks

/-- One iteration of the `for` loop of `HandleConnections` after `ws.ReadJSON` delivered
`msg`: the `switch msg.State`. Returns the `gamePath` variable, the `results` map and the
envelopes sent; a `break` inside a case leaves the `switch` only, so the loop goes on. -/
def handleMessage {ρ σ : Type} (C : Codec ρ) (R : Rand σ) (gamePath : String)
    (results : Store) (msg : ClientMessage ρ) :
    Except Fault (String × Store × List Response) :=
  if msg.State = "start" then
    match C.unmarshalStart msg.Data with
    | none => pure (gamePath, results, [])
    | some data => do
      let gamePath := data.Path
      let variation ← generateCardVariation R data.Path
      let cardData : CardVariationData := ⟨(variation.length : Int), variation⟩
      pure (gamePath, results, [sendResponse "set" (ResponseData.cardData cardData)])
  else if msg.State = "finish" then
    match C.unmarshalFinish msg.Data with
    | none => pure (gamePath, results, [])
    | some data =>
      let (bestResult, results) := updateBestResult results gamePath data.Clicks data.Time
      let resultMessage := Sprintf bestResult data.Clicks
      let resultScore : ResultStateData := ⟨resultMessage⟩
      pure (gamePath, results, [sendResponse "result" (ResponseData.resultScore resultScore)])
  else
    pure (gamePath, results, [])

/-- The `for` loop of `HandleConnections` on the messages `ws.ReadJSON` delivers before
its first error (which ends the loop): final `gamePath`, final `results`, and all
envelopes sent, in order. -/
def handleLoop {ρ σ : Type} (C : Codec ρ) (R : Rand σ) :
    String → Store → List (ClientMessage ρ) → Except Fault (String × Store × List Response)
  | gamePath, results, [] => pure (gamePath, results, [])
  | gamePath, results, msg :: rest => do
    let (gamePath', results', sent) ← handleMessage C R gamePath results msg
    let (gamePath'', results'', sent') ← handleLoop C R gamePath' results' rest
    pure (gamePath'', results'', sent ++ sent')

/-- Go `HandleConnections` after a successful upgrade: `var gamePath string` starts
empty, then the loop runs. -/
def HandleConnections {ρ σ : Type} (C : Codec ρ) (R : Rand σ) (results : Store)
    (msgs : List (ClientMessage ρ)) : Except Fault (String × Store × List Response) :=
  handleLoop C R "" results msgs

/-- Paths of the `"start"` messages of a trace whose payload decoded, in arrival order
(specification side). -/
def decodedStarts {ρ : Type} (C : Codec ρ) (msgs : List (ClientMessage ρ)) : List String :=
  msgs.filterMap (fun msg =>
    if msg.State = "start" then (C.unmarshalStart msg.Data).map StartStateData.Path
    else none)

/-- Path of the most recent `"start"` message of a trace whose payload decoded, the
empty string when there is none (specification side). -/
def lastStartPath {ρ : Type} (C : Codec ρ) (msgs : List (ClientMessage ρ)) : String :=
  (decodedStarts C msgs).getLast?.getD ""

/-- A value of a sample payload field: a JSON number or a JSON string. -/
inductive FieldValue where
  | num (n : Int)
  | str (s : String)
deriving DecidableEq, Repr

/-- A sample payload: a JSON object with scalar fields. -/
abbrev Payload := List (String × FieldValue)

/-- A sample codec over `Payload`: a missing field keeps the zero value, a field of the
wrong JSON type is a decode error. -/
def sampleCodec : Codec Payload where
  unmarshalStart := fun d =>
    match d.lookup "path" with
    | none => some ⟨""⟩
    | some (FieldValue.str s) => some ⟨s⟩
    | some (FieldValue.num _) => none
  unmarshalFinish := fun d =>
    match d.lookup "clicks", d.lookup "time" with
    | some (FieldValue.str _), _ => none
    | _, some (FieldValue.str _) => none
    | none, none => some ⟨0, 0⟩
    | some (FieldValue.num c), none => some ⟨c, 0⟩
    | none, some (FieldValue.num t) => some ⟨0, t⟩
    | some (FieldValue.num c), some (FieldValue.num t) => some ⟨c, t⟩

/-! ## The generator inside the process state -/

/-- The mutable state of the server process that a call of `generateCardVariation` runs
in: the package-level `results` map, the package-level source of `math/rand` (the one
behind the top-level `rand.Intn`), and the heap of generators created by `rand.New`, a
generator being addressed by the position at which it was allocated. -/
structure Process (σ : Type) where
  results : Store
  globalRand : σ
  sources : Nat → σ
  next : Nat

/-- Overwrite the state of the generator at address `r`. -/
def Process.setSource {σ : Type} (w : Process σ) (r : Nat) (s : σ) : Process σ :=
  { w with sources := fun a => if a = r then s else w.sources a }

/-- Go `rand.New(rand.NewSource(seed))`: allocates a generator at the next free address,
in the state `NewSource` builds from the seed, and returns that address. -/
def Process.New {σ : Type} (R : Rand σ) (w : Process σ) (seed : Int) : Nat × Process σ :=
  (w.next, { (w.setSource w.next (R.NewSource seed)) with next := w.next + 1 })

/-- Go `r.Intn(n)` on the generator at address `r`: the value drawn from that
generator's state, which is advanced in place. -/
def Process.Intn {σ : Type} (R : Rand σ) (w : Process σ) (r : Nat) (n : Int) :
    Except Fault (Int × Process σ) := do
  let (v, s) ← R.Intn (w.sources r) n
  pure (v, w.setSource r s)

/-- Go top-level `rand.Intn(n)`, which draws from the package-level source; the code under
study never calls it. -/
def Process.globalIntn {σ : Type} (R : Rand σ) (w : Process σ) (n : Int) :
    Except Fault (Int × Process σ) := do
  let (v, s) ← R.Intn w.globalRand n
  pure (v, { w with globalRand := s })

/-- The drawing loop of `generateCardVariation` on the generator at address `r`, with `k`
iterations left. -/
def drawHalfIn {σ : Type} (R : Rand σ) (r : Nat) :
    Nat → Process σ → List Int → Except Fault (List Int × Process σ)
  | 0, w, variation => pure (variation, w)
  | k + 1, w, variation => do
    let (v, w') ← w.Intn R r maxCard
    drawHalfIn R r k w' (variation ++ [v])

/-- The shuffle loop of `generateCardVariation` on the generator at address `r`, entered
with loop variable `i`. -/
def shuffleIn {σ : Type} (R : Rand σ) (r : Nat) :
    Nat → Process σ → List Int → Except Fault (List Int × Process σ)
  | 0, w, variation => pure (variation, w)
  | i + 1, w, variation => do
    let (n, w') ← w.Intn R r (((i + 1 : Nat) : Int) + 1)
    let variation' ← swap variation ((i + 1 : Nat) : Int) n
    shuffleIn R r i w' variation'

/-- Go `generateCardVariation(path)` as a step of the process: the layout returned and
the process state the call leaves. -/
def generateCardVariationIn {σ : Type} (R : Rand σ) (w : Process σ) (path : String) :
    Except Fault (List Int × Process σ) := do
  let seed ← StringToInt64 path
  let (r, w) := w.New R seed
  let (c, w) ← w.Intn R r (countVar.length : Int)
  let count ← index countVar c
  let (variation, w) ←
    if count ≥ 2 then drawHalfIn R r (Int.tdiv count 2).toNat w []
    else pure ([], w)
  let variation := variation ++ variation
  let (variation, w) ← shuffleIn R r (variation.length - 1) w variation
  pure (variation, w)

/-- A process with an empty `results` map, no generator allocated, and every source
state `0` (states of the counting source). -/
def quietProcess : Process Nat where
  results := Store.empty
  globalRand := 0
  sources := fun _ => 0
  next := 0

/-- A process that has been running: an entry in `results`, an advanced package-level
source, three generators allocated, and other states on the heap. -/
def busyProcess : Process Nat where
  results := Store.empty.set "/level12" ⟨7, 40⟩
  globalRand := 99
  sources := fun a => 5 * a + 2
  next := 3

/-! ### Store lemmas -/

theorem updateBestResult_absent (results : Store) (path : String) (clicks time : Int)
    (h : results path = none) :
    updateBestResult results path clicks time
      = (clicks, results.set path ⟨clicks, time⟩) := by
  simp [updateBestResult, Store.lookup, h]

theorem updateBestResult_better (results : Store) (path : String) (clicks time : Int)
    (r : Result) (h : results path = some r) (hlt : clicks < r.Clicks) :
    updateBestResult results path clicks time
      = (clicks, results.set path ⟨clicks, time⟩) := by
  simp [updateBestResult, Store.lookup, h, hlt]

theorem updateBestResult_keep (results : Store) (path : String) (clicks time : Int)
    (r : Result) (h : results path = some r) (hge : ¬ clicks < r.Clicks) :
    updateBestResult results path clicks time = (r.Clicks, results) := by
  simp [updateBestResult, Store.lookup, h, hge]

theorem Store.set_same (results : Store) (path : String) (r : Result) :
    results.set path r path = some r := by
  simp [Store.set]

/-! ## Claims about the store -/

/-- C1: `updateBestResult` replaces the entry with `{clicks, time}` and returns `clicks`
when the level has no entry or `clicks` is strictly below the stored clicks; otherwise
it leaves the store untouched and returns the stored clicks. In both cases the returned
value is the clicks stored for the level after the call. -/
theorem updateBestResult_contract (results : Store) (path : String) (clicks time : Int) :
    ((results path = none ∨ ∃ r, results path = some r ∧ clicks < r.Clicks) →
        updateBestResult results path clicks time
          = (clicks, results.set path ⟨clicks, time⟩)
        ∧ (updateBestResult results path clicks time).2 path = some ⟨clicks, time⟩)
    ∧ (∀ r, results path = some r → ¬ clicks < r.Clicks →
        updateBestResult results path clicks time = (r.Clicks, results))
    ∧ storedClicks (updateBestResult results path clicks time).2 path
        = some (updateBestResult results path clicks time).1 := by
  refine ⟨?_, ?_, ?_⟩
  · rintro (h | ⟨r, h, hlt⟩)
    · rw [updateBestResult_absent results path clicks time h]
      exact ⟨rfl, Store.set_same _ _ _⟩
    · rw [updateBestResult_better results path clicks time r h hlt]
      exact ⟨rfl, Store.set_same _ _ _⟩
  · intro r h hge
    exact updateBestResult_keep results path clicks time r h hge
  · cases h : results path with
    | none =>
      rw [updateBestResult_absent results path clicks time h]
      simp [storedClicks, Store.set]
    | some r =>
      by_cases hlt : clicks < r.Clicks
      · rw [updateBestResult_better results path clicks time r h hlt]
        simp [storedClicks, Store.set]
      · rw [updateBestResult_keep results path clicks time r h hlt]
        simp [storedClicks, h]

/-- C1 scenario: `("/level1", 10, 50)` then `("/level1", 7, 40)` on the empty store
returns `7` and the stored entry becomes `{7, 40}`. -/
theorem updateBestResult_contract_witness :
    (updateBestResult (updateBestResult Store.empty "/level1" 10 50).2 "/level1" 7 40).1 = 7
    ∧ (updateBestResult (updateBestResult Store.empty "/level1" 10 50).2 "/level1" 7 40).2
        "/level1" = some ⟨7, 40⟩ := by
  have h1 : (updateBestResult Store.empty "/level1" 10 50).2 "/level1" = some ⟨10, 50⟩ :=
    ((updateBestResult_contract Store.empty "/level1" 10 50).1 (Or.inl rfl)).2
  have h2 := (updateBestResult_contract (updateBestResult Store.empty "/level1" 10 50).2
    "/level1" 7 40).1 (Or.inr ⟨⟨10, 50⟩, h1, by decide⟩)
  exact ⟨by rw [h2.1], h2.2⟩

/-! ### Runs of updates -/

theorem minClicks_cons (s : Int × Int) (rest : List (Int × Int)) (h : rest ≠ []) :
    minClicks (s :: rest) = min s.1 (minClicks rest) := by
  cases rest with
  | nil => exact absurd rfl h
  | cons t u => rfl

/-- The least clicks of a run is a lower bound of the submitted clicks. -/
theorem minClicks_le (subs : List (Int × Int)) (s : Int × Int) (h : s ∈ subs) :
    minClicks subs ≤ s.1 := by
  induction subs with
  | nil => cases h
  | cons t rest ih =>
    cases rest with
    | nil =>
      simp only [List.mem_singleton] at h
      subst h
      exact le_refl _
    | cons u v =>
      rw [minClicks_cons t (u :: v) (by simp)]
      rcases List.mem_cons.mp h with h | h
      · subst h
        exact min_le_left _ _
      · exact le_trans (min_le_right _ _) (ih h)

/-- The least clicks of a non-empty run is the clicks of one of its submissions. -/
theorem minClicks_mem (subs : List (Int × Int)) (h : subs ≠ []) :
    ∃ s ∈ subs, s.1 = minClicks subs := by
  induction subs with
  | nil => exact absurd rfl h
  | cons t rest ih =>
    cases rest with
    | nil => exact ⟨t, by simp, rfl⟩
    | cons u v =>
      rw [minClicks_cons t (u :: v) (by simp)]
      obtain ⟨s, hs, hmin⟩ := ih (by simp)
      by_cases hle : t.1 ≤ minClicks (u :: v)
      · exact ⟨t, by simp, by rw [min_eq_left hle]⟩
      · refine ⟨s, List.mem_cons_of_mem _ hs, ?_⟩
        rw [hmin, min_eq_right (le_of_lt (not_le.mp hle))]

theorem earliestBest_singleton (s : Int × Int) : earliestBest [s] = some ⟨s.1, s.2⟩ := by
  simp [earliestBest, minClicks]

theorem earliestBest_cons_better (r s : Int × Int) (rest : List (Int × Int))
    (h : s.1 < r.1) : earliestBest (r :: s :: rest) = earliestBest (s :: rest) := by
  have hle : minClicks (s :: rest) ≤ s.1 := minClicks_le _ s (by simp)
  have hmin : minClicks (r :: s :: rest) = minClicks (s :: rest) := by
    rw [minClicks_cons r (s :: rest) (by simp)]
    omega
  have hr : ¬ r.1 = minClicks (s :: rest) := by omega
  unfold earliestBest
  rw [hmin, List.find?_cons]
  simp [hr]

theorem earliestBest_cons_keep (r s : Int × Int) (rest : List (Int × Int))
    (h : ¬ s.1 < r.1) : earliestBest (r :: s :: rest) = earliestBest (r :: rest) := by
  have hmin : minClicks (r :: s :: rest) = minClicks (r :: rest) := by
    cases rest with
    | nil =>
      show min r.1 s.1 = r.1
      omega
    | cons t u =>
      rw [minClicks_cons r (s :: t :: u) (by simp), minClicks_cons s (t :: u) (by simp),
        minClicks_cons r (t :: u) (by simp)]
      omega
  have hle : minClicks (r :: rest) ≤ r.1 := minClicks_le _ r (by simp)
  unfold earliestBest
  rw [hmin]
  by_cases hr : r.1 = minClicks (r :: rest)
  · simp [List.find?_cons, hr]
  · have hs : ¬ s.1 = minClicks (r :: rest) := by omega
    simp [List.find?_cons, hr, hs]

/-- With an entry `r` already stored, a run ends with the earliest best of the run
preceded by `r`. -/
theorem runUpdates_entry_of_some (subs : List (Int × Int)) :
    ∀ (results : Store) (path : String) (r : Result), results path = some r →
      (runUpdates results path subs).2 path = earliestBest ((r.Clicks, r.Time) :: subs) := by
  induction subs with
  | nil =>
    intro results path r h
    simp [runUpdates, h, earliestBest_singleton]
  | cons s rest ih =>
    intro results path r h
    obtain ⟨clicks, time⟩ := s
    by_cases hlt : clicks < r.Clicks
    · have hstep := updateBestResult_better results path clicks time r h hlt
      have hrun : (runUpdates results path ((clicks, time) :: rest)).2
          = (runUpdates (results.set path ⟨clicks, time⟩) path rest).2 := by
        simp [runUpdates, hstep]
      rw [hrun, ih _ path ⟨clicks, time⟩ (Store.set_same _ _ _)]
      exact (earliestBest_cons_better (r.Clicks, r.Time) (clicks, time) rest hlt).symm
    · have hstep := updateBestResult_keep results path clicks time r h hlt
      have hrun : (runUpdates results path ((clicks, time) :: rest)).2
          = (runUpdates results path rest).2 := by
        simp [runUpdates, hstep]
      rw [hrun, ih results path r h]
      exact (earliestBest_cons_keep (r.Clicks, r.Time) (clicks, time) rest hlt).symm

/-- Starting without an entry, a non-empty run ends with the earliest best of the run. -/
theorem runUpdates_entry_of_none (results : Store) (path : String)
    (subs : List (Int × Int)) (hnone : results path = none) (hne : subs ≠ []) :
    (runUpdates results path subs).2 path = earliestBest subs := by
  cases subs with
  | nil => exact absurd rfl hne
  | cons s rest =>
    obtain ⟨clicks, time⟩ := s
    have hstep := updateBestResult_absent results path clicks time hnone
    have hrun : (runUpdates results path ((clicks, time) :: rest)).2
        = (runUpdates (results.set path ⟨clicks, time⟩) path rest).2 := by
      simp [runUpdates, hstep]
    rw [hrun]
    exact runUpdates_entry_of_some rest _ path ⟨clicks, time⟩ (Store.set_same _ _ _)

/-- The earliest best of a non-empty run carries the least clicks of the run. -/
theorem earliestBest_clicks (subs : List (Int × Int)) (hne : subs ≠ []) :
    (earliestBest subs).map Result.Clicks = some (minClicks subs) := by
  obtain ⟨s, hs, hmin⟩ := minClicks_mem subs hne
  unfold earliestBest
  cases hf : subs.find? (fun s => decide (s.1 = minClicks subs)) with
  | none =>
    have := List.find?_eq_none.mp hf s hs
    simp [hmin] at this
  | some t =>
    have := List.find?_some hf
    simpa using this

theorem storedClicks_updateBestResult (results : Store) (path : String) (clicks time : Int) :
    storedClicks (updateBestResult results path clicks time).2 path
      = some (updateBestResult results path clicks time).1 := by
  cases h : results path with
  | none =>
    rw [updateBestResult_absent results path clicks time h]
    simp [storedClicks, Store.set]
  | some r =>
    by_cases hlt : clicks < r.Clicks
    · rw [updateBestResult_better results path clicks time r h hlt]
      simp [storedClicks, Store.set]
    · rw [updateBestResult_keep results path clicks time r h hlt]
      simp [storedClicks, h]

/-- The `k`-th returned value of a run is the clicks stored after the first `k + 1` calls. -/
theorem runUpdates_returns (subs : List (Int × Int)) :
    ∀ (results : Store) (path : String) (k : Nat), k < subs.length →
      (runUpdates results path subs).1[k]?
        = storedClicks (runUpdates results path (subs.take (k + 1))).2 path := by
  induction subs with
  | nil => intro results path k hk; simp at hk
  | cons s rest ih =>
    intro results path k hk
    obtain ⟨clicks, time⟩ := s
    cases k with
    | zero =>
      simp [runUpdates, storedClicks_updateBestResult]
    | succ j =>
      have hj : j < rest.length := by simpa using hk
      have := ih (updateBestResult results path clicks time).2 path j hj
      simpa [runUpdates] using this

/-- C2: in a non-empty run of `updateBestResult` calls on one level, started without an
entry for the level, after each call (the `k + 1`-th, for every `k`) the stored entry is
the earliest submission so far attaining the least clicks so far, the stored clicks are
that least value, the call returns it, and it does not increase with the next call. The
least value is a lower bound of the clicks submitted so far and is one of them. -/
theorem runUpdates_running_min (results : Store) (path : String) (subs : List (Int × Int))
    (hnone : results path = none) (hne : subs ≠ []) :
    ∀ k, k < subs.length →
      (runUpdates results path (subs.take (k + 1))).2 path = earliestBest (subs.take (k + 1))
      ∧ storedClicks (runUpdates results path (subs.take (k + 1))).2 path
          = some (minClicks (subs.take (k + 1)))
      ∧ (runUpdates results path subs).1[k]? = some (minClicks (subs.take (k + 1)))
      ∧ (∀ s ∈ subs.take (k + 1), minClicks (subs.take (k + 1)) ≤ s.1)
      ∧ (∃ s ∈ subs.take (k + 1), s.1 = minClicks (subs.take (k + 1)))
      ∧ minClicks (subs.take (k + 2)) ≤ minClicks (subs.take (k + 1)) := by
  intro k hk
  have hlen : 0 < subs.length := List.length_pos.mpr hne
  have hpre : subs.take (k + 1) ≠ [] := by
    intro h
    have hz := congrArg List.length h
    rw [List.length_take, List.length_nil] at hz
    omega
  have hentry := runUpdates_entry_of_none results path (subs.take (k + 1)) hnone hpre
  have hclicks : storedClicks (runUpdates results path (subs.take (k + 1))).2 path
      = some (minClicks (subs.take (k + 1))) := by
    unfold storedClicks
    rw [hentry]
    exact earliestBest_clicks _ hpre
  refine ⟨hentry, hclicks, ?_, ?_, minClicks_mem _ hpre, ?_⟩
  · rw [runUpdates_returns subs results path k hk, hclicks]
  · intro s hs
    exact minClicks_le _ s hs
  · obtain ⟨s, hs, hmin⟩ := minClicks_mem _ hpre
    rw [← hmin]
    apply minClicks_le
    have hsub : subs.take (k + 1) = (subs.take (k + 2)).take (k + 1) := by
      rw [List.take_take]
      simp
    rw [hsub] at hs
    exact List.mem_of_mem_take hs

/-- C2 at a concrete run on `"/level1"` from the empty store: submissions
`(10, 50), (7, 40), (7, 20), (9, 1)` return `10, 7, 7, 7`; after the third call the
stored entry is `{7, 40}`, the earliest submission with the least clicks. -/
theorem runUpdates_running_min_witness :
    (runUpdates Store.empty "/level1" [(10, 50), (7, 40), (7, 20), (9, 1)]).1[2]? = some 7
    ∧ (runUpdates Store.empty "/level1" [(10, 50), (7, 40), (7, 20)]).2 "/level1"
        = some ⟨7, 40⟩ := by
  have h := runUpdates_running_min Store.empty "/level1"
    [(10, 50), (7, 40), (7, 20), (9, 1)] rfl (by simp) 2 (by simp)
  refine ⟨?_, ?_⟩
  · rw [h.2.2.1]
    decide
  · have h1 := h.1
    simp only [List.take] at h1
    rw [h1]
    decide

/-- C3: when the level already has the entry `{c, t}`, submitting the same clicks `c`
with any time returns `c` and leaves the store, hence the stored time `t`, as it was;
and for every store and clicks, two calls differing only in the submitted time return
the same value, store the same clicks, and agree on whether the store changes. -/
theorem updateBestResult_tie (results : Store) (path : String) (c t : Int)
    (h : results path = some ⟨c, t⟩) :
    (∀ t', updateBestResult results path c t' = (c, results)
        ∧ (updateBestResult results path c t').2 path = some ⟨c, t⟩)
    ∧ (∀ (store : Store) (level : String) (clicks t₁ t₂ : Int),
        (updateBestResult store level clicks t₁).1 = (updateBestResult store level clicks t₂).1
        ∧ storedClicks (updateBestResult store level clicks t₁).2 level
            = storedClicks (updateBestResult store level clicks t₂).2 level
        ∧ ((updateBestResult store level clicks t₁).2 = store
            ↔ (updateBestResult store level clicks t₂).2 = store)) := by
  refine ⟨?_, ?_⟩
  · intro t'
    have hk := updateBestResult_keep results path c t' ⟨c, t⟩ h (lt_irrefl c)
    exact ⟨hk, by rw [hk]; exact h⟩
  · intro store level clicks t₁ t₂
    have hne : ∀ (tm : Int), store.set level ⟨clicks, tm⟩ = store →
        store level = some ⟨clicks, tm⟩ := by
      intro tm heq
      have := congrFun heq level
      rw [Store.set_same] at this
      exact this.symm
    cases hs : store level with
    | none =>
      rw [updateBestResult_absent store level clicks t₁ hs,
        updateBestResult_absent store level clicks t₂ hs]
      refine ⟨rfl, by simp [storedClicks, Store.set], ?_⟩
      constructor <;> intro heq <;> have := hne _ heq <;> rw [hs] at this <;> cases this
    | some r =>
      by_cases hlt : clicks < r.Clicks
      · rw [updateBestResult_better store level clicks t₁ r hs hlt,
          updateBestResult_better store level clicks t₂ r hs hlt]
        refine ⟨rfl, by simp [storedClicks, Store.set], ?_⟩
        constructor <;> intro heq <;> have := hne _ heq <;> rw [hs] at this <;>
          · injection this with this
            rw [this] at hlt
            exact absurd hlt (lt_irrefl _)
      · rw [updateBestResult_keep store level clicks t₁ r hs hlt,
          updateBestResult_keep store level clicks t₂ r hs hlt]
        exact ⟨rfl, rfl, Iff.rfl⟩

/-- C3 scenario: `("/level1", 10, 50)` then `("/level1", 10, 30)` on the empty store
returns `10` and the stored entry stays `{10, 50}`. -/
theorem updateBestResult_tie_witness :
    (updateBestResult Store.empty "/level1" 10 50).2 "/level1" = some ⟨10, 50⟩
    ∧ (updateBestResult (updateBestResult Store.empty "/level1" 10 50).2 "/level1" 10 30).1
        = 10
    ∧ (updateBestResult (updateBestResult Store.empty "/level1" 10 50).2 "/level1" 10 30).2
        "/level1" = some ⟨10, 50⟩ := by
  have h1 : (updateBestResult Store.empty "/level1" 10 50).2 "/level1" = some ⟨10, 50⟩ := by
    rw [updateBestResult_absent Store.empty "/level1" 10 50 rfl]
    exact Store.set_same Store.empty "/level1" ⟨10, 50⟩
  have h2 := (updateBestResult_tie (updateBestResult Store.empty "/level1" 10 50).2
    "/level1" 10 50 h1).1 30
  exact ⟨h1, by rw [h2.1], h2.2⟩

theorem updateTwice_entry (results : Store) (path : String) (c₁ t₁ c₂ t₂ : Int) :
    updateTwice results path c₁ t₁ c₂ t₂
      = match results path with
        | none => if c₂ < c₁ then (results.set path ⟨c₁, t₁⟩).set path ⟨c₂, t₂⟩
                  else results.set path ⟨c₁, t₁⟩
        | some r =>
          if c₁ < r.Clicks then
            if c₂ < c₁ then (results.set path ⟨c₁, t₁⟩).set path ⟨c₂, t₂⟩
            else results.set path ⟨c₁, t₁⟩
          else if c₂ < r.Clicks then results.set path ⟨c₂, t₂⟩ else results := by
  unfold updateTwice
  cases h : results path with
  | none =>
    rw [updateBestResult_absent results path c₁ t₁ h]
    by_cases h21 : c₂ < c₁
    · rw [updateBestResult_better _ path c₂ t₂ ⟨c₁, t₁⟩ (Store.set_same _ _ _) h21]
      simp [h21]
    · rw [updateBestResult_keep _ path c₂ t₂ ⟨c₁, t₁⟩ (Store.set_same _ _ _) h21]
      simp [h21]
  | some r =>
    by_cases h1 : c₁ < r.Clicks
    · rw [updateBestResult_better results path c₁ t₁ r h h1]
      by_cases h21 : c₂ < c₁
      · rw [updateBestResult_better _ path c₂ t₂ ⟨c₁, t₁⟩ (Store.set_same _ _ _) h21]
        simp [h1, h21]
      · rw [updateBestResult_keep _ path c₂ t₂ ⟨c₁, t₁⟩ (Store.set_same _ _ _) h21]
        simp [h1, h21]
    · rw [updateBestResult_keep results path c₁ t₁ r h h1]
      by_cases h2 : c₂ < r.Clicks
      · rw [updateBestResult_better results path c₂ t₂ r h h2]
        simp [h1, h2]
      · rw [updateBestResult_keep results path c₂ t₂ r h h2]
        simp [h1, h2]

theorem Store.set_set (results : Store) (path : String) (a b : Result) :
    (results.set path a).set path b = results.set path b := by
  funext k
  simp only [Store.set]
  split <;> rfl

/-- C4: in the sequential model, two submissions `(c₁, t₁)` and `(c₂, t₂)` to one level
leave the same stored clicks whichever is applied first, namely the least of `c₁`, `c₂`
and the previously stored clicks (if any); when `c₁ ≠ c₂` the two orders leave identical
stores. -/
theorem updateBestResult_order_independent (results : Store) (path : String)
    (c₁ t₁ c₂ t₂ : Int) :
    storedClicks (updateTwice results path c₁ t₁ c₂ t₂) path
        = some (leastOfThree (results path) c₁ c₂)
    ∧ storedClicks (updateTwice results path c₂ t₂ c₁ t₁) path
        = some (leastOfThree (results path) c₁ c₂)
    ∧ (c₁ ≠ c₂ →
        updateTwice results path c₁ t₁ c₂ t₂ = updateTwice results path c₂ t₂ c₁ t₁) := by
  rw [updateTwice_entry, updateTwice_entry]
  cases h : results path with
  | none =>
    simp only [leastOfThree]
    refine ⟨?_, ?_, ?_⟩
    · split <;> simp [storedClicks, Store.set] <;> omega
    · split <;> simp [storedClicks, Store.set] <;> omega
    · intro hne
      rcases lt_or_gt_of_ne hne with hlt | hgt
      · rw [if_neg (by omega), if_pos hlt, Store.set_set]
      · rw [if_pos hgt, if_neg (by omega), Store.set_set]
  | some r =>
    simp only [leastOfThree]
    refine ⟨?_, ?_, ?_⟩
    · split_ifs <;> simp [storedClicks, Store.set, h] <;> omega
    · split_ifs <;> simp [storedClicks, Store.set, h] <;> omega
    · intro hne
      rcases lt_or_gt_of_ne hne with hlt | hgt
      · by_cases h1 : c₁ < r.Clicks
        · by_cases h2 : c₂ < r.Clicks
          · rw [if_pos h1, if_neg (by omega), if_pos h2, if_pos hlt, Store.set_set]
          · rw [if_pos h1, if_neg (by omega), if_neg h2, if_pos h1]
        · rw [if_neg h1, if_neg (by omega), if_neg (by omega), if_neg h1]
      · by_cases h2 : c₂ < r.Clicks
        · by_cases h1 : c₁ < r.Clicks
          · rw [if_pos h1, if_pos hgt, if_pos h2, if_neg (by omega), Store.set_set]
          · rw [if_neg h1, if_pos h2, if_pos h2, if_neg (by omega)]
        · rw [if_neg (by omega), if_neg h2, if_neg h2, if_neg (by omega)]

/-! ## Generator lemmas -/

theorem Rand.Intn_of_pos {σ : Type} (R : Rand σ) (r : σ) (n : Int) (hn : 0 < n) :
    R.Intn r n = Except.ok (R.draw r n) := by
  unfold Rand.Intn
  rw [if_neg (by omega)]

theorem index_of_lt (xs : List Int) (i : Nat) (h : i < xs.length) :
    index xs (i : Int) = Except.ok xs[i] := by
  unfold index
  rw [if_neg (by omega)]
  simp [List.getElem?_eq_getElem h]

theorem index_of_bounds (xs : List Int) (i : Int) (h0 : 0 ≤ i) (h1 : i < xs.length) :
    ∃ (j : Nat) (hj : j < xs.length), i = (j : Int) ∧ index xs i = Except.ok xs[j] := by
  refine ⟨i.toNat, by omega, by omega, ?_⟩
  have hi : i = ((i.toNat : Nat) : Int) := by omega
  have hlt : i.toNat < xs.length := by omega
  conv_lhs => rw [hi]
  exact index_of_lt xs i.toNat hlt

/-- Exchanging two in-range positions keeps every value's number of occurrences. -/
theorem count_set_set (xs : List Int) (i j : Nat) (hi : i < xs.length) (hj : j < xs.length)
    (a : Int) : ((xs.set i xs[j]).set j xs[i]).count a = xs.count a := by
  have hj' : j < (xs.set i xs[j]).length := by simpa using hj
  rw [List.count_set _ _ _ _ hj', List.count_set _ _ _ _ hi]
  have hget : (xs.set i xs[j])[j] = xs[j] := by
    rw [List.getElem_set]
    split <;> rfl
  rw [hget]
  have hle : (if xs[i] == a then 1 else 0) ≤ xs.count a := by
    split
    · rename_i h
      have hmem : xs[i] ∈ xs := List.getElem_mem hi
      have := List.count_pos_iff.mpr hmem
      rw [show xs[i] = a from by simpa using h] at this
      exact this
    · exact Nat.zero_le _
  split_ifs at * <;> omega

theorem swap_of_lt (xs : List Int) (i j : Nat) (hi : i < xs.length) (hj : j < xs.length) :
    swap xs (i : Int) (j : Int) = Except.ok ((xs.set i xs[j]).set j xs[i]) := by
  unfold swap
  rw [index_of_lt xs j hj, index_of_lt xs i hi]
  simp [bind, Except.bind, pure, Except.pure]

theorem swap_perm (xs : List Int) (i j : Nat) (hi : i < xs.length) (hj : j < xs.length) :
    ((xs.set i xs[j]).set j xs[i]).Perm xs :=
  List.perm_iff_count.mpr (fun a => count_set_set xs i j hi hj a)

/-- With an in-bounds source the shuffle loop entered at `i ≤ len - 1` raises no fault and
returns a permutation of the slice it was given. -/
theorem shuffle_ok {σ : Type} (R : Rand σ) (hR : R.InBounds) :
    ∀ (i : Nat) (r : σ) (variation : List Int), i ≤ variation.length - 1 →
      ∃ out r', shuffle R i r variation = Except.ok (out, r') ∧ out.Perm variation := by
  intro i
  induction i with
  | zero =>
    intro r variation _
    exact ⟨variation, r, rfl, List.Perm.refl _⟩
  | succ i ih =>
    intro r variation hi
    have hpos : (0 : Int) < ((i + 1 : Nat) : Int) + 1 := by omega
    obtain ⟨h0, h1⟩ := hR r (((i + 1 : Nat) : Int) + 1) hpos
    have hilt : i + 1 < variation.length := by omega
    have hn : (R.draw r (((i + 1 : Nat) : Int) + 1)).1
        = (((R.draw r (((i + 1 : Nat) : Int) + 1)).1.toNat : Nat) : Int) := by omega
    have hnlt : (R.draw r (((i + 1 : Nat) : Int) + 1)).1.toNat < variation.length := by omega
    have hswap := swap_of_lt variation (i + 1)
      (R.draw r (((i + 1 : Nat) : Int) + 1)).1.toNat hilt hnlt
    rw [← hn] at hswap
    obtain ⟨out, r', hrec, hperm⟩ := ih (R.draw r (((i + 1 : Nat) : Int) + 1)).2
      ((variation.set (i + 1)
        variation[(R.draw r (((i + 1 : Nat) : Int) + 1)).1.toNat]).set
          (R.draw r (((i + 1 : Nat) : Int) + 1)).1.toNat variation[i + 1])
      (by simp only [List.length_set]; omega)
    refine ⟨out, r', ?_, hperm.trans (swap_perm variation _ _ hilt hnlt)⟩
    rw [shuffle, Rand.Intn_of_pos R r _ hpos]
    simp only [bind, Except.bind]
    rw [hswap]
    exact hrec

/-- With an in-bounds source the drawing loop raises no fault and appends exactly `k`
values, each in `[0, 5)`. -/
theorem drawHalf_ok {σ : Type} (R : Rand σ) (hR : R.InBounds) :
    ∀ (k : Nat) (r : σ) (variation : List Int),
      ∃ drawn r', drawHalf R k r variation = Except.ok (variation ++ drawn, r')
        ∧ drawn.length = k ∧ ∀ v ∈ drawn, 0 ≤ v ∧ v < 5 := by
  intro k
  induction k with
  | zero =>
    intro r variation
    exact ⟨[], r, by simp [drawHalf, pure, Except.pure], rfl, by simp⟩
  | succ k ih =>
    intro r variation
    have hpos : (0 : Int) < maxCard := by decide
    obtain ⟨h0, h1⟩ := hR r maxCard hpos
    obtain ⟨drawn, r', hrec, hlen, hval⟩ := ih (R.draw r maxCard).2
      (variation ++ [(R.draw r maxCard).1])
    refine ⟨(R.draw r maxCard).1 :: drawn, r', ?_, by simp [hlen], ?_⟩
    · rw [drawHalf, Rand.Intn_of_pos R r _ hpos]
      simp only [bind, Except.bind]
      rw [hrec]
      simp
    · intro v hv
      rcases List.mem_cons.mp hv with hv | hv
      · subst hv
        exact ⟨h0, h1⟩
      · exact hval v hv

/-- The seed loop raises no fault unless it divides by a zero rune count with a rune
left to process. -/
theorem sumRunes_ok (totalRunes : Int) :
    ∀ (runes : List Char) (result : Int), (runes ≠ [] → totalRunes ≠ 0) →
      ∃ seed, sumRunes totalRunes runes result = Except.ok seed := by
  intro runes
  induction runes with
  | nil => intro result _; exact ⟨result, rfl⟩
  | cons c rest ih =>
    intro result h
    have hn : totalRunes ≠ 0 := h (by simp)
    rw [sumRunes, if_neg hn]
    exact ih _ (fun _ => hn)

/-- Seed derivation returns a value for every identifier, the empty one included. -/
theorem StringToInt64_ok (line : String) : ∃ seed, StringToInt64 line = Except.ok seed := by
  unfold StringToInt64
  apply sumRunes_ok
  intro hne h0
  have : line.data.length = 0 := by exact_mod_cast h0
  exact hne (List.length_eq_zero.mp this)

/-- With an in-bounds source, lines 178-191 raise no fault for any identifier: the half
set has 3, 4 or 6 values, each in `[0, 5)`. -/
theorem halfSet_ok {σ : Type} (R : Rand σ) (hR : R.InBounds) (path : String) :
    ∃ half r, halfSet R path = Except.ok (half, r)
      ∧ (half.length = 3 ∨ half.length = 4 ∨ half.length = 6)
      ∧ ∀ v ∈ half, 0 ≤ v ∧ v < 5 := by
  obtain ⟨seed, hseed⟩ := StringToInt64_ok path
  have hpos : (0 : Int) < (countVar.length : Int) := by decide
  obtain ⟨h0, h1⟩ := hR (R.NewSource seed) (countVar.length : Int) hpos
  have hlen : ((countVar.length : Nat) : Int) = 3 := by decide
  have h3 := lt_of_lt_of_eq h1 hlen
  have hcases : (R.draw (R.NewSource seed) (countVar.length : Int)).1 = 0
      ∨ (R.draw (R.NewSource seed) (countVar.length : Int)).1 = 1
      ∨ (R.draw (R.NewSource seed) (countVar.length : Int)).1 = 2 := by omega
  have hstart : halfSet R path
      = (index countVar (R.draw (R.NewSource seed) (countVar.length : Int)).1 >>= fun count =>
          if count ≥ 2 then
            drawHalf R (Int.tdiv count 2).toNat
              (R.draw (R.NewSource seed) (countVar.length : Int)).2 []
          else pure ([], (R.draw (R.NewSource seed) (countVar.length : Int)).2)) := by
    unfold halfSet
    rw [hseed]
    simp only [bind, Except.bind]
    rw [Rand.Intn_of_pos R _ _ hpos]
  rw [hstart]
  rcases hcases with hc | hc | hc
  · obtain ⟨drawn, r', hd, hl, hv⟩ := drawHalf_ok R hR 3
      (R.draw (R.NewSource seed) (countVar.length : Int)).2 []
    refine ⟨drawn, r', ?_, Or.inl hl, hv⟩
    rw [hc]
    simpa using hd
  · obtain ⟨drawn, r', hd, hl, hv⟩ := drawHalf_ok R hR 4
      (R.draw (R.NewSource seed) (countVar.length : Int)).2 []
    refine ⟨drawn, r', ?_, Or.inr (Or.inl hl), hv⟩
    rw [hc]
    simpa using hd
  · obtain ⟨drawn, r', hd, hl, hv⟩ := drawHalf_ok R hR 6
      (R.draw (R.NewSource seed) (countVar.length : Int)).2 []
    refine ⟨drawn, r', ?_, Or.inr (Or.inr hl), hv⟩
    rw [hc]
    simpa using hd

/-- With an in-bounds source `generateCardVariation` raises no fault for any identifier
and returns a permutation of the half set followed by itself. -/
theorem generateCardVariation_ok {σ : Type} (R : Rand σ) (hR : R.InBounds) (path : String) :
    ∃ half r out, halfSet R path = Except.ok (half, r)
      ∧ generateCardVariation R path = Except.ok out
      ∧ out.Perm (half ++ half)
      ∧ (half.length = 3 ∨ half.length = 4 ∨ half.length = 6)
      ∧ ∀ v ∈ half, 0 ≤ v ∧ v < 5 := by
  obtain ⟨half, r, hhalf, hlen, hval⟩ := halfSet_ok R hR path
  obtain ⟨out, r', hsh, hperm⟩ := shuffle_ok R hR ((half ++ half).length - 1) r
    (half ++ half) (le_refl _)
  refine ⟨half, r, out, hhalf, ?_, hperm, hlen, hval⟩
  unfold generateCardVariation
  rw [hhalf]
  simp only [bind, Except.bind]
  rw [hsh]
  rfl

theorem zeroSource_inBounds : zeroSource.InBounds := by
  intro r n hn
  exact ⟨le_refl _, hn⟩

theorem countingSource_inBounds : countingSource.InBounds := by
  intro r n hn
  exact ⟨Int.emod_nonneg _ (by omega), Int.emod_lt_of_pos _ hn⟩

/-- A slice of card values in `[0, 5)` is as long as its occurrences of `0 .. 4` together. -/
theorem length_eq_counts (xs : List Int) (h : ∀ v ∈ xs, 0 ≤ v ∧ v < 5) :
    xs.length = xs.count 0 + xs.count 1 + xs.count 2 + xs.count 3 + xs.count 4 := by
  induction xs with
  | nil => rfl
  | cons x rest ih =>
    have hrest := ih (fun v hv => h v (List.mem_cons_of_mem _ hv))
    obtain ⟨h0, h1⟩ := h x (List.mem_cons_self _ _)
    have hx : x = 0 ∨ x = 1 ∨ x = 2 ∨ x = 3 ∨ x = 4 := by omega
    rcases hx with hx | hx | hx | hx | hx <;> subst hx <;>
      simp [List.count_cons] <;> omega

/-- Six card values in `[0, 5)` cannot be pairwise distinct. -/
theorem exists_repeated_of_six (xs : List Int) (hlen : xs.length = 6)
    (h : ∀ v ∈ xs, 0 ≤ v ∧ v < 5) : ∃ v ∈ xs, 2 ≤ xs.count v := by
  by_contra hno
  have hle : ∀ v : Int, xs.count v ≤ 1 := by
    intro v
    by_cases hv : v ∈ xs
    · by_contra hgt
      exact hno ⟨v, hv, by omega⟩
    · rw [List.count_eq_zero.mpr hv]
      exact Nat.zero_le _
  have hsum := length_eq_counts xs h
  have a0 := hle 0
  have a1 := hle 1
  have a2 := hle 2
  have a3 := hle 3
  have a4 := hle 4
  omega

/-! ## Claims about the generator -/

/-- C5: for a non-empty level identifier and a source whose `Intn(n)` stays in `[0, n)`,
`generateCardVariation` returns a layout whose length is 6, 8 or 12, hence even. -/
theorem generateCardVariation_length {σ : Type} (R : Rand σ) (hR : R.InBounds)
    (path : String) (_hpath : path ≠ "") :
    ∃ out, generateCardVariation R path = Except.ok out
      ∧ (out.length = 6 ∨ out.length = 8 ∨ out.length = 12) ∧ Even out.length := by
  obtain ⟨half, r, out, _, hout, hperm, hlen, _⟩ := generateCardVariation_ok R hR path
  have hl : out.length = half.length + half.length := by
    rw [hperm.length_eq, List.length_append]
  refine ⟨out, hout, by omega, ⟨half.length, hl⟩⟩

/-- C5 at `"/level1"` with the counting source: the layout has length 6, 8 or 12. -/
theorem generateCardVariation_length_witness :
    countingSource.InBounds ∧ "/level1" ≠ "" ∧
    ∃ out, generateCardVariation countingSource "/level1" = Except.ok out
      ∧ (out.length = 6 ∨ out.length = 8 ∨ out.length = 12) ∧ Even out.length :=
  ⟨countingSource_inBounds, by decide,
    generateCardVariation_length countingSource countingSource_inBounds "/level1" (by decide)⟩

/-- C6: for a non-empty level identifier and an in-bounds source, the layout is a
permutation of the half set followed by itself: it is twice as long as the half set, every
integer occurs in it exactly twice as often as among the values drawn for the half set,
and so every value occurs an even number of times. -/
theorem generateCardVariation_doubles_halfSet {σ : Type} (R : Rand σ) (hR : R.InBounds)
    (path : String) (_hpath : path ≠ "") :
    ∃ half r out, halfSet R path = Except.ok (half, r)
      ∧ generateCardVariation R path = Except.ok out
      ∧ out.Perm (half ++ half)
      ∧ out.length = 2 * half.length
      ∧ (∀ v : Int, out.count v = 2 * half.count v)
      ∧ ∀ v : Int, Even (out.count v) := by
  obtain ⟨half, r, out, hhalf, hout, hperm, _, _⟩ := generateCardVariation_ok R hR path
  have hcount : ∀ v : Int, out.count v = 2 * half.count v := by
    intro v
    rw [hperm.count_eq, List.count_append]
    omega
  refine ⟨half, r, out, hhalf, hout, hperm, ?_, hcount, ?_⟩
  · rw [hperm.length_eq, List.length_append]
    omega
  · intro v
    exact ⟨half.count v, by rw [hcount v]; omega⟩

/-- C6 at `"/level1"` with the counting source: the half set is `[4, 0, 1, 2, 3, 4]` and
the layout holds each integer twice as often. -/
theorem generateCardVariation_doubles_halfSet_witness :
    halfSet countingSource "/level1" = Except.ok ([4, 0, 1, 2, 3, 4], 30)
    ∧ ∃ out, generateCardVariation countingSource "/level1" = Except.ok out
      ∧ out.Perm ([4, 0, 1, 2, 3, 4] ++ [4, 0, 1, 2, 3, 4])
      ∧ ∀ v : Int, out.count v = 2 * List.count v [4, 0, 1, 2, 3, 4] := by
  obtain ⟨half, r, out, hhalf, hout, hperm, _, hcount, _⟩ :=
    generateCardVariation_doubles_halfSet countingSource countingSource_inBounds "/level1"
      (by decide)
  have hval : halfSet countingSource "/level1" = Except.ok ([4, 0, 1, 2, 3, 4], 30) := by
    decide
  rw [hval] at hhalf
  injection hhalf with hhalf
  injection hhalf with h1 h2
  subst h1
  exact ⟨hval, out, hout, hperm, hcount⟩

/-- C7 fails as stated: with the counting source (in bounds) the layout for `"/level1"` is
`[0, 2, 4, 3, 0, 1, 4, 3, 4, 1, 2, 4]`, in which the value `4` occurs four times. -/
theorem generateCardVariation_exactly_two_counterexample :
    countingSource.InBounds ∧ "/level1" ≠ ""
    ∧ generateCardVariation countingSource "/level1"
        = Except.ok [0, 2, 4, 3, 0, 1, 4, 3, 4, 1, 2, 4]
    ∧ List.count (4 : Int) [0, 2, 4, 3, 0, 1, 4, 3, 4, 1, 2, 4] = 4
    ∧ ¬ (∀ out, generateCardVariation countingSource "/level1" = Except.ok out →
          ∀ v ∈ out, out.count v = 2) := by
  have hval : generateCardVariation countingSource "/level1"
      = Except.ok [0, 2, 4, 3, 0, 1, 4, 3, 4, 1, 2, 4] := by decide
  refine ⟨countingSource_inBounds, by decide, hval, by decide, ?_⟩
  intro hall
  have := hall _ hval 4 (by decide)
  exact absurd this (by decide)

/-- C7 as amended: for a non-empty level identifier and an in-bounds source, each value
present in the layout occurs an even number of times, at least two: twice the number of
times it was drawn for the half set, hence exactly two precisely for a value drawn once. -/
theorem generateCardVariation_even_occurrences {σ : Type} (R : Rand σ) (hR : R.InBounds)
    (path : String) (_hpath : path ≠ "") :
    ∃ half r out, halfSet R path = Except.ok (half, r)
      ∧ generateCardVariation R path = Except.ok out
      ∧ ∀ v ∈ out, 2 ≤ out.count v ∧ Even (out.count v)
          ∧ out.count v = 2 * half.count v
          ∧ (out.count v = 2 ↔ half.count v = 1) := by
  obtain ⟨half, r, out, hhalf, hout, hperm, _, _⟩ := generateCardVariation_ok R hR path
  refine ⟨half, r, out, hhalf, hout, ?_⟩
  intro v hv
  have hcount : out.count v = 2 * half.count v := by
    rw [hperm.count_eq, List.count_append]
    omega
  have hpos : 0 < out.count v := List.count_pos_iff.mpr hv
  exact ⟨by omega, ⟨half.count v, by omega⟩, hcount, by omega⟩

/-- C7 as amended, at `"/level1"` with the counting source. -/
theorem generateCardVariation_even_occurrences_witness :
    countingSource.InBounds ∧ "/level1" ≠ "" ∧
    ∃ half r out, halfSet countingSource "/level1" = Except.ok (half, r)
      ∧ generateCardVariation countingSource "/level1" = Except.ok out
      ∧ ∀ v ∈ out, 2 ≤ out.count v ∧ Even (out.count v)
          ∧ out.count v = 2 * half.count v
          ∧ (out.count v = 2 ↔ half.count v = 1) :=
  ⟨countingSource_inBounds, by decide,
    generateCardVariation_even_occurrences countingSource countingSource_inBounds "/level1"
      (by decide)⟩

/-- Whatever the in-bounds source, a layout of length 12 holds a value occurring at
least four times (six draws from five values). -/
theorem generateCardVariation_twelve_repeats {σ : Type} (R : Rand σ) (hR : R.InBounds)
    (path : String) :
    ∃ out, generateCardVariation R path = Except.ok out
      ∧ (out.length = 12 → ∃ v ∈ out, 4 ≤ out.count v) := by
  obtain ⟨half, r, out, _, hout, hperm, _, hval⟩ := generateCardVariation_ok R hR path
  refine ⟨out, hout, ?_⟩
  intro h12
  have hl : half.length = 6 := by
    have := hperm.length_eq
    rw [List.length_append] at this
    omega
  obtain ⟨v, hv, h2⟩ := exists_repeated_of_six half hl hval
  refine ⟨v, hperm.mem_iff.mpr (List.mem_append_left _ hv), ?_⟩
  rw [hperm.count_eq, List.count_append]
  omega

/-- C8: for a non-empty level identifier and an in-bounds source, every element `v` of
the layout satisfies `0 ≤ v < 5`. -/
theorem generateCardVariation_values {σ : Type} (R : Rand σ) (hR : R.InBounds)
    (path : String) (_hpath : path ≠ "") :
    ∃ out, generateCardVariation R path = Except.ok out ∧ ∀ v ∈ out, 0 ≤ v ∧ v < 5 := by
  obtain ⟨half, r, out, _, hout, hperm, _, hval⟩ := generateCardVariation_ok R hR path
  refine ⟨out, hout, ?_⟩
  intro v hv
  rcases List.mem_append.mp (hperm.mem_iff.mp hv) with h | h <;> exact hval v h

/-- C8 at `"/level3"` with the counting source. -/
theorem generateCardVariation_values_witness :
    countingSource.InBounds ∧ "/level3" ≠ "" ∧
    ∃ out, generateCardVariation countingSource "/level3" = Except.ok out
      ∧ ∀ v ∈ out, 0 ≤ v ∧ v < 5 :=
  ⟨countingSource_inBounds, by decide,
    generateCardVariation_values countingSource countingSource_inBounds "/level3"
      (by decide)⟩

/-! ## Seed derivation -/

theorem Char.toNat_lt_limit (c : Char) : c.toNat < 1114112 := by
  have h := c.valid
  unfold Char.toNat
  unfold UInt32.isValidChar Nat.isValidChar at h
  omega

theorem wrapInt64_of_range (x : Int) (h0 : 0 ≤ x) (h1 : x < 9223372036854775808) :
    wrapInt64 x = x := by
  unfold wrapInt64
  omega

/-- The model's division is real: with a zero rune count, a rune left to process faults. -/
theorem sumRunes_zero_cons (c : Char) (rest : List Char) (result : Int) :
    sumRunes 0 (c :: rest) result = Except.error Fault.divideByZero := by
  simp [sumRunes]

/-- While the running total stays below `2^63`, the seed loop adds up `rune mod m`. -/
theorem sumRunes_eq_sum (m : Nat) (hm : 0 < m) :
    ∀ (runes : List Char) (a : Nat),
      a + (runes.map (fun c => c.toNat % m)).sum < 9223372036854775808 →
      sumRunes (m : Int) runes (a : Int)
        = Except.ok (((a + (runes.map (fun c => c.toNat % m)).sum : Nat)) : Int) := by
  intro runes
  induction runes with
  | nil => intro a _; simp [sumRunes]
  | cons c rest ih =>
    intro a ha
    have htmod : Int.tmod (c.toNat : Int) (m : Int) = ((c.toNat % m : Nat) : Int) := by
      rw [Int.tmod_eq_emod (by omega) (by omega)]
      omega
    rw [List.map_cons, List.sum_cons] at ha
    have hwrap : wrapInt64 ((a : Int) + Int.tmod (c.toNat : Int) (m : Int))
        = ((a + c.toNat % m : Nat) : Int) := by
      rw [htmod, wrapInt64_of_range _ (by omega) (by omega)]
      omega
    rw [sumRunes, if_neg (by omega), hwrap, ih (a + c.toNat % m) (by omega)]
    simp [List.sum_cons, Nat.add_assoc]

theorem sum_map_mod_le (m : Nat) (runes : List Char) :
    (runes.map (fun c => c.toNat % m)).sum ≤ runes.length * 1114111 := by
  induction runes with
  | nil => simp
  | cons c rest ih =>
    have hc := Char.toNat_lt_limit c
    have hmod : c.toNat % m ≤ c.toNat := Nat.mod_le _ _
    rw [List.map_cons, List.sum_cons, List.length_cons]
    omega

/-- The sum of `code point mod n` fits an `int64` for every identifier of at most `2^42`
code points. -/
theorem seedSum_lt_of_length (line : String) (hlen : line.length ≤ 2 ^ 42) :
    seedSum line < 2 ^ 63 := by
  have hl : line.data.length ≤ 4398046511104 := by
    have : line.length = line.data.length := rfl
    omega
  have hsum := sum_map_mod_le line.data.length line.data
  unfold seedSum
  have : ((line.data.map (fun c => c.toNat % line.data.length)).sum : Nat)
      < 9223372036854775808 := by omega
  have h2 : (2 : Int) ^ 63 = 9223372036854775808 := by norm_num
  rw [h2]
  exact_mod_cast this

/-- C9: for a non-empty identifier of `n` code points, `StringToInt64` returns the sum
over its code points of `code point mod n`, the sum being a value of the `int64` result
type (below `2^63`; `seedSum_lt_of_length` shows this for every identifier of at most
`2^42` code points). -/
theorem StringToInt64_eq_seedSum (line : String) (_hne : line ≠ "")
    (hfit : seedSum line < 2 ^ 63) :
    StringToInt64 line = Except.ok (seedSum line) := by
  have h2 : (2 : Int) ^ 63 = 9223372036854775808 := by norm_num
  rw [h2] at hfit
  unfold seedSum at hfit
  unfold StringToInt64 seedSum
  by_cases h0 : line.data.length = 0
  · have hnil := List.length_eq_zero.mp h0
    rw [hnil]
    simp [sumRunes]
  · have hnat : 0 + (line.data.map (fun c => c.toNat % line.data.length)).sum
        < 9223372036854775808 := by
      rw [Nat.zero_add]
      exact_mod_cast hfit
    have h := sumRunes_eq_sum line.data.length (by omega) line.data 0 hnat
    simpa using h

/-- C9 at `"/level1"` (7 code points): the seed is `5 + 3 + 3 + 6 + 3 + 3 + 0 = 23`. -/
theorem StringToInt64_eq_seedSum_witness :
    "/level1" ≠ "" ∧ seedSum "/level1" < 2 ^ 63
    ∧ StringToInt64 "/level1" = Except.ok (seedSum "/level1") ∧ seedSum "/level1" = 23 :=
  ⟨by decide, by decide,
    StringToInt64_eq_seedSum "/level1" (by decide) (by decide), by decide⟩

/-- C10 fails as stated: on the empty identifier the seed loop has no rune to process, so
no division is evaluated; `StringToInt64` returns `0`, not a division-by-zero fault, and
`generateCardVariation` returns a layout (here with the counting source). -/
theorem StringToInt64_empty_counterexample :
    StringToInt64 "" = Except.ok 0
    ∧ StringToInt64 "" ≠ Except.error Fault.divideByZero
    ∧ generateCardVariation countingSource "" = Except.ok [1, 3, 2, 3, 1, 2] := by
  refine ⟨by decide, by decide, by decide⟩

/-- C10 as amended: for the empty identifier `StringToInt64` returns `0` without
dividing, and with an in-bounds source `generateCardVariation` returns a layout of
length 6, 8 or 12 instead of faulting. -/
theorem generateCardVariation_empty {σ : Type} (R : Rand σ) (hR : R.InBounds) :
    StringToInt64 "" = Except.ok 0
    ∧ ∃ out, generateCardVariation R "" = Except.ok out
        ∧ (out.length = 6 ∨ out.length = 8 ∨ out.length = 12) := by
  refine ⟨by decide, ?_⟩
  obtain ⟨half, r, out, _, hout, hperm, hlen, _⟩ := generateCardVariation_ok R hR ""
  have hl : out.length = half.length + half.length := by
    rw [hperm.length_eq, List.length_append]
  exact ⟨out, hout, by omega⟩

/-- C10 as amended, with the all-zero source: the empty identifier yields six zeros. -/
theorem generateCardVariation_empty_witness :
    zeroSource.InBounds
    ∧ generateCardVariation zeroSource "" = Except.ok [0, 0, 0, 0, 0, 0]
    ∧ StringToInt64 "" = Except.ok 0
    ∧ ∃ out, generateCardVariation zeroSource "" = Except.ok out
        ∧ (out.length = 6 ∨ out.length = 8 ∨ out.length = 12) :=
  ⟨zeroSource_inBounds, by decide, (generateCardVariation_empty zeroSource zeroSource_inBounds).1,
    (generateCardVariation_empty zeroSource zeroSource_inBounds).2⟩

/-! ## Determinism -/

theorem halfSet_congr_seed {σ : Type} (R : Rand σ) (p₁ p₂ : String)
    (hseed : StringToInt64 p₁ = StringToInt64 p₂) : halfSet R p₁ = halfSet R p₂ := by
  unfold halfSet
  rw [hseed]

theorem generateCardVariation_congr_seed {σ : Type} (R : Rand σ) (p₁ p₂ : String)
    (hseed : StringToInt64 p₁ = StringToInt64 p₂) :
    generateCardVariation R p₁ = generateCardVariation R p₂ := by
  unfold generateCardVariation
  rw [halfSet_congr_seed R p₁ p₂ hseed]

theorem Process.setSource_sources {σ : Type} (w : Process σ) (r : Nat) (s : σ) :
    (w.setSource r s).sources r = s := by
  simp [Process.setSource]

theorem Process.setSource_setSource {σ : Type} (w : Process σ) (r : Nat) (s s' : σ) :
    (w.setSource r s).setSource r s' = w.setSource r s' := by
  unfold Process.setSource
  congr 1
  funext a
  by_cases h : a = r <;> simp [h]

theorem Process.setSource_self {σ : Type} (w : Process σ) (r : Nat) :
    w.setSource r (w.sources r) = w := by
  unfold Process.setSource
  cases w with
  | mk results globalRand sources next =>
    congr 1
    funext a
    by_cases h : a = r <;> simp [h]

/-- The drawing loop inside the process draws exactly what the loop on the state of the
generator at `r` draws, and writes only that generator. -/
theorem drawHalfIn_eq {σ : Type} (R : Rand σ) (r : Nat) :
    ∀ (k : Nat) (w : Process σ) (variation : List Int),
      drawHalfIn R r k w variation
        = (drawHalf R k (w.sources r) variation >>= fun x =>
            pure (x.1, w.setSource r x.2)) := by
  intro k
  induction k with
  | zero =>
    intro w variation
    simp only [drawHalfIn, drawHalf, pure, Except.pure, bind, Except.bind]
    rw [Process.setSource_self]
  | succ k ih =>
    intro w variation
    rw [drawHalfIn, drawHalf, Process.Intn]
    cases hI : R.Intn (w.sources r) maxCard with
    | error e => rfl
    | ok x =>
      obtain ⟨v, s⟩ := x
      simp only [bind, Except.bind, pure, Except.pure]
      rw [ih (w.setSource r s) (variation ++ [v]), Process.setSource_sources]
      simp only [bind, Except.bind, pure, Except.pure, Process.setSource_setSource]

/-- The shuffle loop inside the process does exactly what the loop on the state of the
generator at `r` does, and writes only that generator. -/
theorem shuffleIn_eq {σ : Type} (R : Rand σ) (r : Nat) :
    ∀ (i : Nat) (w : Process σ) (variation : List Int),
      shuffleIn R r i w variation
        = (shuffle R i (w.sources r) variation >>= fun x =>
            pure (x.1, w.setSource r x.2)) := by
  intro i
  induction i with
  | zero =>
    intro w variation
    simp only [shuffleIn, shuffle, pure, Except.pure, bind, Except.bind]
    rw [Process.setSource_self]
  | succ i ih =>
    intro w variation
    rw [shuffleIn, shuffle, Process.Intn]
    cases hI : R.Intn (w.sources r) (((i + 1 : Nat) : Int) + 1) with
    | error e => rfl
    | ok x =>
      obtain ⟨n, s⟩ := x
      simp only [bind, Except.bind, pure, Except.pure]
      cases hsw : swap variation ((i + 1 : Nat) : Int) n with
      | error e => rfl
      | ok v =>
        simp only []
        rw [ih (w.setSource r s) v, Process.setSource_sources]
        simp only [bind, Except.bind, pure, Except.pure, Process.setSource_setSource]

theorem Process.New_sources {σ : Type} (R : Rand σ) (w : Process σ) (seed : Int) :
    (w.New R seed).2.sources (w.New R seed).1 = R.NewSource seed := by
  simp [Process.New, Process.setSource]

theorem Process.New_setSource {σ : Type} (R : Rand σ) (w : Process σ) (seed : Int) (s : σ) :
    (w.New R seed).2.setSource (w.New R seed).1 s
      = ({ w with next := w.next + 1 } : Process σ).setSource w.next s := by
  unfold Process.New Process.setSource
  simp only
  congr 1
  funext a
  by_cases h : a = w.next <;> simp [h]

/-- Inside any process state the generator computes what `halfSet` and `shuffle` compute
from the identifier alone; the state it leaves is the one it found, with one more
generator allocated. -/
theorem generateCardVariationIn_eq {σ : Type} (R : Rand σ) (w : Process σ) (path : String) :
    generateCardVariationIn R w path
      = ((halfSet R path >>= fun h =>
            shuffle R ((h.1 ++ h.1).length - 1) h.2 (h.1 ++ h.1)) >>= fun y =>
          pure (y.1, ({ w with next := w.next + 1 } : Process σ).setSource w.next y.2)) := by
  unfold generateCardVariationIn halfSet
  cases hseed : StringToInt64 path with
  | error e => rfl
  | ok seed =>
    simp only [bind, Except.bind]
    rw [Process.Intn, Process.New_sources]
    cases hI : R.Intn (R.NewSource seed) (countVar.length : Int) with
    | error e => rfl
    | ok x =>
      obtain ⟨c, s⟩ := x
      simp only [bind, Except.bind, pure, Except.pure]
      cases hc : index countVar c with
      | error e => rfl
      | ok count =>
        simp only []
        have hworld : ∀ s₁ s₂ : σ,
            ((w.New R seed).2.setSource (w.New R seed).1 s₁).setSource (w.New R seed).1 s₂
              = ({ w with next := w.next + 1 } : Process σ).setSource w.next s₂ := by
          intro s₁ s₂
          rw [Process.setSource_setSource, Process.New_setSource]
        by_cases hcount : count ≥ 2
        · rw [if_pos hcount, if_pos hcount, drawHalfIn_eq, Process.setSource_sources]
          cases drawHalf R (Int.tdiv count 2).toNat s [] with
          | error e => rfl
          | ok h =>
            simp only [bind, Except.bind, pure, Except.pure, Process.setSource_setSource]
            rw [shuffleIn_eq, Process.setSource_sources]
            cases shuffle R ((h.1 ++ h.1).length - 1) h.2 (h.1 ++ h.1) with
            | error e => rfl
            | ok y =>
              simp only [bind, Except.bind, pure, Except.pure]
              rw [hworld]
        · rw [if_neg hcount, if_neg hcount, shuffleIn_eq, Process.setSource_sources]
          simp only [bind, Except.bind, pure, Except.pure]
          cases shuffle R (([] ++ [] : List Int).length - 1) s ([] ++ []) with
          | error e => rfl
          | ok y =>
            simp only []
            rw [hworld]

/-- The layout computed inside any process state is the one the generator computes from
the identifier alone. -/
theorem generateCardVariationIn_layout {σ : Type} (R : Rand σ) (w : Process σ)
    (path : String) :
    (generateCardVariationIn R w path).map Prod.fst = generateCardVariation R path := by
  rw [generateCardVariationIn_eq]
  unfold generateCardVariation
  cases halfSet R path with
  | error e => rfl
  | ok h =>
    simp only [bind, Except.bind, pure, Except.pure]
    cases shuffle R ((h.1 ++ h.1).length - 1) h.2 (h.1 ++ h.1) with
    | error e => rfl
    | ok y => rfl

/-- A call that returns leaves the `results` map, the package-level source and every
generator allocated before the call as they were; it allocates exactly one generator. -/
theorem generateCardVariationIn_frame {σ : Type} (R : Rand σ) (w : Process σ)
    (path : String) (out : List Int) (w' : Process σ)
    (h : generateCardVariationIn R w path = Except.ok (out, w')) :
    w'.results = w.results ∧ w'.globalRand = w.globalRand ∧ w'.next = w.next + 1
      ∧ ∀ a : Nat, a ≠ w.next → w'.sources a = w.sources a := by
  rw [generateCardVariationIn_eq] at h
  cases hp : (halfSet R path >>= fun h =>
      shuffle R ((h.1 ++ h.1).length - 1) h.2 (h.1 ++ h.1)) with
  | error e =>
    rw [hp] at h
    cases h
  | ok y =>
    rw [hp] at h
    have hinj : (y.1, ({ w with next := w.next + 1 } : Process σ).setSource w.next y.2)
        = (out, w') := Except.ok.inj h
    injection hinj with _ hw
    rw [← hw]
    refine ⟨rfl, rfl, rfl, ?_⟩
    intro a ha
    simp [Process.setSource, ha]

/-- The two sample processes differ in state a generator could draw from: the
package-level source and the generator at address `1` answer differently in each. -/
theorem sample_processes_differ :
    (Process.globalIntn countingSource quietProcess 5).map Prod.fst = Except.ok 0
    ∧ (Process.globalIntn countingSource busyProcess 5).map Prod.fst = Except.ok 4
    ∧ (Process.Intn countingSource quietProcess 1 5).map Prod.fst = Except.ok 0
    ∧ (Process.Intn countingSource busyProcess 1 5).map Prod.fst = Except.ok 2 := by
  refine ⟨by decide, by decide, by decide, by decide⟩

/-- C11: the layout is a function of the seed alone. Run `generateCardVariation` on
non-empty identifiers `p₁`, `p₂` of equal seed (in particular on `p₁ = p₂`) in any two
states `w₁`, `w₂` of the process, whatever their `results` maps, package-level sources and
previously allocated generators: each run draws only from the generator it allocates
itself by `rand.New(rand.NewSource(seed))`, both give the same result, which is the one
computed from the identifier alone, and with an in-bounds source both return the same
layout. A run that returns has changed nothing it found: it only adds its generator. -/
theorem generateCardVariation_deterministic {σ : Type} (R : Rand σ) (w₁ w₂ : Process σ)
    (p₁ p₂ : String) (_h₁ : p₁ ≠ "") (_h₂ : p₂ ≠ "")
    (hseed : StringToInt64 p₁ = StringToInt64 p₂) :
    (generateCardVariationIn R w₁ p₁).map Prod.fst
        = (generateCardVariationIn R w₂ p₂).map Prod.fst
    ∧ (generateCardVariationIn R w₁ p₁).map Prod.fst = generateCardVariation R p₁
    ∧ generateCardVariation R p₁ = generateCardVariation R p₂
    ∧ (R.InBounds → ∃ out w₁' w₂',
        generateCardVariationIn R w₁ p₁ = Except.ok (out, w₁')
        ∧ generateCardVariationIn R w₂ p₂ = Except.ok (out, w₂'))
    ∧ (∀ out w₁', generateCardVariationIn R w₁ p₁ = Except.ok (out, w₁') →
        w₁'.results = w₁.results ∧ w₁'.globalRand = w₁.globalRand
        ∧ w₁'.next = w₁.next + 1
        ∧ ∀ a : Nat, a ≠ w₁.next → w₁'.sources a = w₁.sources a) := by
  have hl₁ := generateCardVariationIn_layout R w₁ p₁
  have hl₂ := generateCardVariationIn_layout R w₂ p₂
  have hpure := generateCardVariation_congr_seed R p₁ p₂ hseed
  refine ⟨by rw [hl₁, hl₂, hpure], hl₁, hpure, ?_, ?_⟩
  · intro hR
    obtain ⟨_, _, out, _, hout, _⟩ := generateCardVariation_ok R hR p₁
    have ho₁ : (generateCardVariationIn R w₁ p₁).map Prod.fst = Except.ok out := by
      rw [hl₁, hout]
    have ho₂ : (generateCardVariationIn R w₂ p₂).map Prod.fst = Except.ok out := by
      rw [hl₂, ← hpure, hout]
    cases h₁ : generateCardVariationIn R w₁ p₁ with
    | error e =>
      rw [h₁] at ho₁
      cases ho₁
    | ok x₁ =>
      cases h₂ : generateCardVariationIn R w₂ p₂ with
      | error e =>
        rw [h₂] at ho₂
        cases ho₂
      | ok x₂ =>
        rw [h₁] at ho₁
        rw [h₂] at ho₂
        have e₁ : x₁.1 = out := Except.ok.inj ho₁
        have e₂ : x₂.1 = out := Except.ok.inj ho₂
        refine ⟨out, x₁.2, x₂.2, ?_, ?_⟩
        · rw [← e₁]
        · rw [← e₂]
  · intro out w₁' h
    exact generateCardVariationIn_frame R w₁ p₁ out w₁' h

/-- C11 at the anagrams `"/level12"` and `"/level21"` (both of seed 34) with the counting
source, the first run in the quiet process and the second in the busy one: both return
`[0, 1, 0, 3, 2, 2, 1, 3]`. -/
theorem generateCardVariation_deterministic_witness :
    "/level12" ≠ "" ∧ "/level21" ≠ ""
    ∧ StringToInt64 "/level12" = StringToInt64 "/level21"
    ∧ (generateCardVariationIn countingSource quietProcess "/level12").map Prod.fst
        = (generateCardVariationIn countingSource busyProcess "/level21").map Prod.fst
    ∧ (generateCardVariationIn countingSource busyProcess "/level21").map Prod.fst
        = Except.ok [0, 1, 0, 3, 2, 2, 1, 3] :=
  ⟨by decide, by decide, by decide,
    (generateCardVariation_deterministic countingSource quietProcess busyProcess
      "/level12" "/level21" (by decide) (by decide) (by decide)).1, by decide⟩

/-! ## Handler lemmas -/

theorem handleMessage_of_start_decoded {ρ σ : Type} (C : Codec ρ) (R : Rand σ) (gamePath : String)
    (results : Store) (msg : ClientMessage ρ) (data : StartStateData)
    (variation : List Int) (hstate : msg.State = "start")
    (hdec : C.unmarshalStart msg.Data = some data)
    (hgen : generateCardVariation R data.Path = Except.ok variation) :
    handleMessage C R gamePath results msg
      = Except.ok (data.Path, results,
          [sendResponse "set"
            (ResponseData.cardData ⟨(variation.length : Int), variation⟩)]) := by
  unfold handleMessage
  rw [if_pos hstate, hdec]
  simp only [bind, Except.bind, hgen]
  rfl

theorem handleMessage_of_start_undecoded {ρ σ : Type} (C : Codec ρ) (R : Rand σ) (gamePath : String)
    (results : Store) (msg : ClientMessage ρ) (hstate : msg.State = "start")
    (hdec : C.unmarshalStart msg.Data = none) :
    handleMessage C R gamePath results msg = Except.ok (gamePath, results, []) := by
  unfold handleMessage
  rw [if_pos hstate, hdec]
  rfl

theorem handleMessage_of_finish_decoded {ρ σ : Type} (C : Codec ρ) (R : Rand σ)
    (gamePath : String) (results : Store) (msg : ClientMessage ρ) (data : FinishStateData)
    (hstate : msg.State = "finish") (hdec : C.unmarshalFinish msg.Data = some data) :
    handleMessage C R gamePath results msg
      = Except.ok (gamePath, (updateBestResult results gamePath data.Clicks data.Time).2,
          [sendResponse "result" (ResponseData.resultScore
            ⟨Sprintf (updateBestResult results gamePath data.Clicks data.Time).1
              data.Clicks⟩)]) := by
  have hne : ¬ msg.State = "start" := by rw [hstate]; decide
  unfold handleMessage
  rw [if_neg hne, if_pos hstate, hdec]
  rfl

theorem handleMessage_of_finish_undecoded {ρ σ : Type} (C : Codec ρ) (R : Rand σ)
    (gamePath : String) (results : Store) (msg : ClientMessage ρ)
    (hstate : msg.State = "finish") (hdec : C.unmarshalFinish msg.Data = none) :
    handleMessage C R gamePath results msg = Except.ok (gamePath, results, []) := by
  have hne : ¬ msg.State = "start" := by rw [hstate]; decide
  unfold handleMessage
  rw [if_neg hne, if_pos hstate, hdec]
  rfl

theorem handleMessage_other {ρ σ : Type} (C : Codec ρ) (R : Rand σ) (gamePath : String)
    (results : Store) (msg : ClientMessage ρ) (hs : msg.State ≠ "start")
    (hf : msg.State ≠ "finish") :
    handleMessage C R gamePath results msg = Except.ok (gamePath, results, []) := by
  unfold handleMessage
  rw [if_neg hs, if_neg hf]
  rfl

/-- A step that leaves the state as it was and sends nothing does not affect the rest of
the loop. -/
theorem handleLoop_skip {ρ σ : Type} (C : Codec ρ) (R : Rand σ) (gamePath : String)
    (results : Store) (msg : ClientMessage ρ) (rest : List (ClientMessage ρ))
    (h : handleMessage C R gamePath results msg = Except.ok (gamePath, results, [])) :
    handleLoop C R gamePath results (msg :: rest) = handleLoop C R gamePath results rest := by
  rw [handleLoop, h]
  simp only [bind, Except.bind]
  cases handleLoop C R gamePath results rest with
  | error e => rfl
  | ok v => rfl

theorem handleLoop_cons_ok {ρ σ : Type} (C : Codec ρ) (R : Rand σ) (gamePath : String)
    (results : Store) (msg : ClientMessage ρ) (rest : List (ClientMessage ρ))
    (g₁ g₂ : String) (s₁ s₂ : Store) (t₁ t₂ : List Response)
    (hmsg : handleMessage C R gamePath results msg = Except.ok (g₁, s₁, t₁))
    (hrest : handleLoop C R g₁ s₁ rest = Except.ok (g₂, s₂, t₂)) :
    handleLoop C R gamePath results (msg :: rest) = Except.ok (g₂, s₂, t₁ ++ t₂) := by
  rw [handleLoop, hmsg]
  simp only [bind, Except.bind]
  rw [hrest]
  rfl

/-- Appending one message to a trace: the loop runs the trace, then the step. -/
theorem handleLoop_append_ok {ρ σ : Type} (C : Codec ρ) (R : Rand σ)
    (msgs : List (ClientMessage ρ)) (msg : ClientMessage ρ) :
    ∀ (gamePath : String) (results : Store) (g₁ g₂ : String) (s₁ s₂ : Store)
      (t₁ t₂ : List Response),
      handleLoop C R gamePath results msgs = Except.ok (g₁, s₁, t₁) →
      handleMessage C R g₁ s₁ msg = Except.ok (g₂, s₂, t₂) →
      handleLoop C R gamePath results (msgs ++ [msg]) = Except.ok (g₂, s₂, t₁ ++ t₂) := by
  induction msgs with
  | nil =>
    intro gamePath results g₁ g₂ s₁ s₂ t₁ t₂ hloop hmsg
    have hinj : (gamePath, results, ([] : List Response)) = (g₁, s₁, t₁) :=
      Except.ok.inj hloop
    injection hinj with hg hrest
    injection hrest with hs ht
    subst hg hs ht
    have := handleLoop_cons_ok C R gamePath results msg [] g₂ g₂ s₂ s₂ t₂ [] hmsg rfl
    simpa using this
  | cons x xs ih =>
    intro gamePath results g₁ g₂ s₁ s₂ t₁ t₂ hloop hmsg
    cases hx : handleMessage C R gamePath results x with
    | error e =>
      rw [handleLoop, hx] at hloop
      cases hloop
    | ok v =>
      obtain ⟨ga, sa, ta⟩ := v
      cases hxs : handleLoop C R ga sa xs with
      | error e =>
        rw [handleLoop, hx] at hloop
        simp only [bind, Except.bind] at hloop
        rw [hxs] at hloop
        cases hloop
      | ok w =>
        obtain ⟨gb, sb, tb⟩ := w
        have hcons := handleLoop_cons_ok C R gamePath results x xs ga gb sa sb ta tb hx hxs
        rw [hcons] at hloop
        have hinj : (gb, sb, ta ++ tb) = (g₁, s₁, t₁) := Except.ok.inj hloop
        injection hinj with hg hrest
        injection hrest with hs ht
        subst hg hs ht
        have hrec := ih ga sa gb g₂ sb s₂ tb t₂ hxs hmsg
        have := handleLoop_cons_ok C R gamePath results x (xs ++ [msg]) ga g₂ sa s₂ ta
          (tb ++ t₂) hx hrec
        simpa [List.append_assoc] using this

/-- With an in-bounds source one step raises no fault; `gamePath` becomes the decoded
path of a `"start"` message and stays as it was otherwise. -/
theorem handleMessage_ok {ρ σ : Type} (C : Codec ρ) (R : Rand σ) (hR : R.InBounds)
    (gamePath : String) (results : Store) (msg : ClientMessage ρ) :
    ∃ results' sent, handleMessage C R gamePath results msg
      = Except.ok ((decodedStarts C [msg]).getLast?.getD gamePath, results', sent) := by
  by_cases hs : msg.State = "start"
  · cases hdec : C.unmarshalStart msg.Data with
    | none =>
      refine ⟨results, [], ?_⟩
      rw [handleMessage_of_start_undecoded C R gamePath results msg hs hdec]
      simp [decodedStarts, hs, hdec]
    | some data =>
      obtain ⟨_, _, variation, _, hgen, _⟩ := generateCardVariation_ok R hR data.Path
      refine ⟨results, [sendResponse "set"
        (ResponseData.cardData ⟨(variation.length : Int), variation⟩)], ?_⟩
      rw [handleMessage_of_start_decoded C R gamePath results msg data variation hs hdec hgen]
      simp [decodedStarts, hs, hdec]
  · have hd : decodedStarts C [msg] = [] := by simp [decodedStarts, hs]
    rw [hd]
    by_cases hf : msg.State = "finish"
    · cases hdec : C.unmarshalFinish msg.Data with
      | none =>
        exact ⟨results, [], handleMessage_of_finish_undecoded C R gamePath results msg hf hdec⟩
      | some data =>
        exact ⟨_, _, handleMessage_of_finish_decoded C R gamePath results msg data hf hdec⟩
    · exact ⟨results, [], handleMessage_other C R gamePath results msg hs hf⟩

theorem decodedStarts_cons {ρ : Type} (C : Codec ρ) (msg : ClientMessage ρ)
    (rest : List (ClientMessage ρ)) :
    decodedStarts C (msg :: rest) = decodedStarts C [msg] ++ decodedStarts C rest := by
  unfold decodedStarts
  rw [← List.filterMap_append]
  rfl

theorem getLast?_append_getD (a b : List String) (g : String) :
    (a ++ b).getLast?.getD g = b.getLast?.getD (a.getLast?.getD g) := by
  cases hb : b.getLast? with
  | none =>
    have : b = [] := List.getLast?_eq_none_iff.mp hb
    subst this
    simp
  | some x =>
    have hne : b ≠ [] := by
      intro h
      subst h
      simp at hb
    rw [List.getLast?_append_of_ne_nil _ hne, hb]
    rfl

/-- With an in-bounds source the loop raises no fault on any trace and ends with
`gamePath` equal to the last decoded `"start"` path, or its initial value if none. -/
theorem handleLoop_ok {ρ σ : Type} (C : Codec ρ) (R : Rand σ) (hR : R.InBounds)
    (msgs : List (ClientMessage ρ)) :
    ∀ (gamePath : String) (results : Store),
      ∃ results' sent, handleLoop C R gamePath results msgs
        = Except.ok ((decodedStarts C msgs).getLast?.getD gamePath, results', sent) := by
  induction msgs with
  | nil =>
    intro gamePath results
    exact ⟨results, [], rfl⟩
  | cons msg rest ih =>
    intro gamePath results
    obtain ⟨s₁, t₁, hmsg⟩ := handleMessage_ok C R hR gamePath results msg
    obtain ⟨s₂, t₂, hrest⟩ := ih ((decodedStarts C [msg]).getLast?.getD gamePath) s₁
    have hpath : (decodedStarts C (msg :: rest)).getLast?.getD gamePath
        = (decodedStarts C rest).getLast?.getD
            ((decodedStarts C [msg]).getLast?.getD gamePath) := by
      rw [decodedStarts_cons C msg rest, getLast?_append_getD]
    refine ⟨s₂, t₁ ++ t₂, ?_⟩
    rw [handleLoop_cons_ok C R gamePath results msg rest _ _ s₁ s₂ t₁ t₂ hmsg hrest, hpath]

/-! ## Claims about the connection handler -/

/-- C12: a `"start"` envelope whose payload decodes to a non-empty `path` sets the
session's level identifier to `path`, leaves the store as it was, and sends exactly one
envelope, of state `"set"`, whose `variation` is `generateCardVariation(path)` and whose
`count` is the length of that variation, one of 6, 8 and 12 (source in bounds). -/
theorem handleMessage_start {ρ σ : Type} (C : Codec ρ) (R : Rand σ) (hR : R.InBounds)
    (gamePath : String) (results : Store) (msg : ClientMessage ρ) (path : String)
    (hstate : msg.State = "start") (hdec : C.unmarshalStart msg.Data = some ⟨path⟩)
    (_hpath : path ≠ "") :
    ∃ variation, generateCardVariation R path = Except.ok variation
      ∧ handleMessage C R gamePath results msg
          = Except.ok (path, results,
              [⟨"set", ResponseData.cardData ⟨(variation.length : Int), variation⟩⟩])
      ∧ (variation.length = 6 ∨ variation.length = 8 ∨ variation.length = 12) := by
  obtain ⟨half, r, variation, _, hgen, hperm, hlen, _⟩ := generateCardVariation_ok R hR path
  have hl : variation.length = half.length + half.length := by
    rw [hperm.length_eq, List.length_append]
  refine ⟨variation, hgen, ?_, by omega⟩
  exact handleMessage_of_start_decoded C R gamePath results msg ⟨path⟩ variation hstate hdec hgen

/-- C12 scenario: `{"state":"start","date":{"path":"/level3"}}` on a fresh session, with
the sample codec and the counting source: the identifier becomes `"/level3"` and the one
envelope sent is `"set"` with `count = 8`. -/
theorem handleMessage_start_witness :
    ∃ variation, generateCardVariation countingSource "/level3" = Except.ok variation
      ∧ handleMessage sampleCodec countingSource "" Store.empty
          (⟨"start", [("path", FieldValue.str "/level3")]⟩ : ClientMessage Payload)
          = Except.ok ("/level3", Store.empty,
              [⟨"set", ResponseData.cardData ⟨(variation.length : Int), variation⟩⟩])
      ∧ (variation.length = 6 ∨ variation.length = 8 ∨ variation.length = 12) :=
  handleMessage_start sampleCodec countingSource countingSource_inBounds "" Store.empty
    ⟨"start", [("path", FieldValue.str "/level3")]⟩ "/level3" rfl rfl (by decide)

/-- C13: a `"finish"` envelope whose payload decodes to `{clicks, time}` replaces the
store by the one `updateBestResult(gamePath, clicks, time)` leaves, keeps the session's
level identifier, and sends exactly one envelope, of state `"result"`, whose message is
`"best result is B and your result is C"` with `B` the decimal rendering of the value
`updateBestResult` returned and `C` that of the submitted clicks. -/
theorem handleMessage_finish {ρ σ : Type} (C : Codec ρ) (R : Rand σ) (gamePath : String)
    (results : Store) (msg : ClientMessage ρ) (clicks time : Int)
    (hstate : msg.State = "finish")
    (hdec : C.unmarshalFinish msg.Data = some ⟨clicks, time⟩) :
    handleMessage C R gamePath results msg
      = Except.ok (gamePath, (updateBestResult results gamePath clicks time).2,
          [⟨"result", ResponseData.resultScore
            ⟨"best result is " ++ toString (updateBestResult results gamePath clicks time).1
              ++ " and your result is " ++ toString clicks⟩⟩]) :=
  handleMessage_of_finish_decoded C R gamePath results msg ⟨clicks, time⟩ hstate hdec

/-- C13 at a session on `"/level1"` whose store holds `{7, 40}`: submitting
`{clicks: 10, time: 30}` sends `"best result is 7 and your result is 10"`. -/
theorem handleMessage_finish_witness :
    (handleMessage sampleCodec countingSource "/level1"
        (Store.empty.set "/level1" ⟨7, 40⟩)
        (⟨"finish", [("clicks", FieldValue.num 10), ("time", FieldValue.num 30)]⟩ :
          ClientMessage Payload)).map (fun out => (out.1, out.2.2))
      = Except.ok ("/level1",
          [⟨"result", ResponseData.resultScore
            ⟨"best result is 7 and your result is 10"⟩⟩]) := by
  rw [handleMessage_finish sampleCodec countingSource "/level1"
    (Store.empty.set "/level1" ⟨7, 40⟩)
    ⟨"finish", [("clicks", FieldValue.num 10), ("time", FieldValue.num 30)]⟩ 10 30 rfl rfl]
  decide

/-- C14: a `"start"` or `"finish"` envelope whose payload fails to decode sends nothing
and leaves the store and the session's level identifier as they were; the loop then
handles the remaining messages from that unchanged state. -/
theorem handleMessage_decode_failure {ρ σ : Type} (C : Codec ρ) (R : Rand σ)
    (gamePath : String) (results : Store) (msg : ClientMessage ρ)
    (hfail : (msg.State = "start" ∧ C.unmarshalStart msg.Data = none)
      ∨ (msg.State = "finish" ∧ C.unmarshalFinish msg.Data = none)) :
    handleMessage C R gamePath results msg = Except.ok (gamePath, results, [])
    ∧ ∀ rest, handleLoop C R gamePath results (msg :: rest)
        = handleLoop C R gamePath results rest := by
  have hstep : handleMessage C R gamePath results msg = Except.ok (gamePath, results, []) := by
    rcases hfail with ⟨hs, hd⟩ | ⟨hf, hd⟩
    · exact handleMessage_of_start_undecoded C R gamePath results msg hs hd
    · exact handleMessage_of_finish_undecoded C R gamePath results msg hf hd
  exact ⟨hstep, fun rest => handleLoop_skip C R gamePath results msg rest hstep⟩

/-- C14 scenario: a `"finish"` payload whose `clicks` is a string fails to decode with the
sample codec; nothing is sent and the state is unchanged. -/
theorem handleMessage_decode_failure_witness :
    sampleCodec.unmarshalFinish [("clicks", FieldValue.str "10"), ("time", FieldValue.num 50)]
      = none
    ∧ handleMessage sampleCodec countingSource "/level1" Store.empty
        (⟨"finish", [("clicks", FieldValue.str "10"), ("time", FieldValue.num 50)]⟩ :
          ClientMessage Payload)
      = Except.ok ("/level1", Store.empty, []) :=
  ⟨rfl, (handleMessage_decode_failure sampleCodec countingSource "/level1" Store.empty
    ⟨"finish", [("clicks", FieldValue.str "10"), ("time", FieldValue.num 50)]⟩
    (Or.inr ⟨rfl, rfl⟩)).1⟩

/-- C15: an envelope whose state tag is neither `"start"` nor `"finish"` sends nothing,
whatever its payload, and leaves the store and the session's level identifier as they
were; the loop then handles the remaining messages from that unchanged state. -/
theorem handleMessage_unrecognised {ρ σ : Type} (C : Codec ρ) (R : Rand σ)
    (gamePath : String) (results : Store) (msg : ClientMessage ρ)
    (hs : msg.State ≠ "start") (hf : msg.State ≠ "finish") :
    handleMessage C R gamePath results msg = Except.ok (gamePath, results, [])
    ∧ ∀ rest, handleLoop C R gamePath results (msg :: rest)
        = handleLoop C R gamePath results rest := by
  have hstep := handleMessage_other C R gamePath results msg hs hf
  exact ⟨hstep, fun rest => handleLoop_skip C R gamePath results msg rest hstep⟩

/-- C15 at the tag `"pause"`. -/
theorem handleMessage_unrecognised_witness :
    handleMessage sampleCodec countingSource "/level1" Store.empty
        (⟨"pause", [("path", FieldValue.str "/level2")]⟩ : ClientMessage Payload)
      = Except.ok ("/level1", Store.empty, []) :=
  (handleMessage_unrecognised sampleCodec countingSource "/level1" Store.empty
    ⟨"pause", [("path", FieldValue.str "/level2")]⟩ (by decide) (by decide)).1

theorem decodedStarts_append {ρ : Type} (C : Codec ρ) (a b : List (ClientMessage ρ)) :
    decodedStarts C (a ++ b) = decodedStarts C a ++ decodedStarts C b := by
  unfold decodedStarts
  exact List.filterMap_append _ _ _

theorem decodedStarts_single_some {ρ : Type} (C : Codec ρ) (msg : ClientMessage ρ)
    (path : String) (hstate : msg.State = "start")
    (hdec : C.unmarshalStart msg.Data = some ⟨path⟩) : decodedStarts C [msg] = [path] := by
  simp [decodedStarts, hstate, hdec]

theorem decodedStarts_single_none {ρ : Type} (C : Codec ρ) (msg : ClientMessage ρ)
    (h : msg.State ≠ "start" ∨ C.unmarshalStart msg.Data = none) :
    decodedStarts C [msg] = [] := by
  rcases h with h | h
  · simp [decodedStarts, h]
  · by_cases hs : msg.State = "start"
    · simp [decodedStarts, hs, h]
    · simp [decodedStarts, hs]

/-- C16: over a whole trace of one connection (source in bounds), a well-formed
`"finish"` arriving after the messages `msgs` updates the store at the key
`lastStartPath msgs` and sends the `"result"` envelope. That key is the path of the most
recent `"start"` of `msgs` whose payload decoded (no decoded `"start"` comes after it), a
message that is not a decoded `"start"` does not change it, and it is the empty string
when `msgs` holds no decoded `"start"`; the update at the empty key is the same
`updateBestResult` call as at any other key, whatever the store holds at that moment. -/
theorem HandleConnections_finish_key {ρ σ : Type} (C : Codec ρ) (R : Rand σ)
    (hR : R.InBounds) (results : Store) (msgs : List (ClientMessage ρ))
    (fin : ClientMessage ρ) (clicks time : Int) (hstate : fin.State = "finish")
    (hdec : C.unmarshalFinish fin.Data = some ⟨clicks, time⟩) :
    (∃ st sent,
      HandleConnections C R results msgs = Except.ok (lastStartPath C msgs, st, sent)
      ∧ HandleConnections C R results (msgs ++ [fin])
          = Except.ok (lastStartPath C msgs,
              (updateBestResult st (lastStartPath C msgs) clicks time).2,
              sent ++ [⟨"result", ResponseData.resultScore
                ⟨Sprintf (updateBestResult st (lastStartPath C msgs) clicks time).1
                  clicks⟩⟩]))
    ∧ (∀ (before after : List (ClientMessage ρ)) (start : ClientMessage ρ) (path : String),
        msgs = before ++ start :: after → start.State = "start" →
        C.unmarshalStart start.Data = some ⟨path⟩ → decodedStarts C after = [] →
        lastStartPath C msgs = path)
    ∧ (∀ m : ClientMessage ρ, (m.State ≠ "start" ∨ C.unmarshalStart m.Data = none) →
        lastStartPath C (msgs ++ [m]) = lastStartPath C msgs)
    ∧ (decodedStarts C msgs = [] → lastStartPath C msgs = "")
    ∧ (∀ store : Store, handleMessage C R (lastStartPath C msgs) store fin
        = Except.ok (lastStartPath C msgs,
            (updateBestResult store (lastStartPath C msgs) clicks time).2,
            [⟨"result", ResponseData.resultScore
              ⟨Sprintf (updateBestResult store (lastStartPath C msgs) clicks time).1
                clicks⟩⟩])) := by
  refine ⟨?_, ?_, ?_, ?_, fun store =>
    handleMessage_of_finish_decoded C R (lastStartPath C msgs) store fin ⟨clicks, time⟩ hstate hdec⟩
  · obtain ⟨st, sent, hloop⟩ := handleLoop_ok C R hR msgs "" results
    refine ⟨st, sent, hloop, ?_⟩
    have hfin := handleMessage_of_finish_decoded C R (lastStartPath C msgs) st fin ⟨clicks, time⟩
      hstate hdec
    exact handleLoop_append_ok C R msgs fin "" results _ _ st _ sent _ hloop hfin
  · intro before after start path hmsgs hs hd hafter
    have hsplit : before ++ start :: after = before ++ ([start] ++ after) := by simp
    unfold lastStartPath
    rw [hmsgs, hsplit, decodedStarts_append, decodedStarts_append, hafter,
      decodedStarts_single_some C start path hs hd]
    simp
  · intro m hm
    unfold lastStartPath
    rw [decodedStarts_append, decodedStarts_single_none C m hm, List.append_nil]
  · intro hnone
    unfold lastStartPath
    rw [hnone]
    rfl

/-- C16 on two traces, with the sample codec and the counting source: after a decoded
`"start"` for `"/level3"`, an unrecognised message and a malformed `"finish"`, a
well-formed `"finish"` stores `{10, 50}` under `"/level3"`; on a connection that never
sent a `"start"` it is stored under the empty key. -/
theorem HandleConnections_finish_key_witness :
    (∃ st sent,
      HandleConnections sampleCodec countingSource Store.empty
          ([⟨"start", [("path", FieldValue.str "/level3")]⟩, ⟨"pause", []⟩,
            ⟨"finish", [("clicks", FieldValue.str "x")]⟩] ++
            [(⟨"finish", [("clicks", FieldValue.num 10), ("time", FieldValue.num 50)]⟩ :
              ClientMessage Payload)])
        = Except.ok ("/level3", st, sent) ∧ st "/level3" = some ⟨10, 50⟩)
    ∧ (∃ st sent,
      HandleConnections sampleCodec countingSource Store.empty
          ([] ++ [(⟨"finish", [("clicks", FieldValue.num 10), ("time", FieldValue.num 50)]⟩ :
              ClientMessage Payload)])
        = Except.ok ("", st, sent) ∧ st "" = some ⟨10, 50⟩) := by
  constructor
  · obtain ⟨⟨st, sent, hpre, hfin⟩, _⟩ := HandleConnections_finish_key sampleCodec
      countingSource countingSource_inBounds Store.empty
      [⟨"start", [("path", FieldValue.str "/level3")]⟩, ⟨"pause", []⟩,
        ⟨"finish", [("clicks", FieldValue.str "x")]⟩]
      ⟨"finish", [("clicks", FieldValue.num 10), ("time", FieldValue.num 50)]⟩ 10 50 rfl rfl
    have hkey : lastStartPath sampleCodec
        ([⟨"start", [("path", FieldValue.str "/level3")]⟩, ⟨"pause", []⟩,
          ⟨"finish", [("clicks", FieldValue.str "x")]⟩] : List (ClientMessage Payload))
        = "/level3" := by decide
    rw [hkey] at hpre hfin
    have hst : st "/level3" = none := by
      have hrun : HandleConnections sampleCodec countingSource Store.empty
          ([⟨"start", [("path", FieldValue.str "/level3")]⟩, ⟨"pause", []⟩,
            ⟨"finish", [("clicks", FieldValue.str "x")]⟩] : List (ClientMessage Payload))
          = Except.ok ("/level3", Store.empty,
              [⟨"set", ResponseData.cardData ⟨8, [2, 1, 1, 2, 4, 3, 4, 3]⟩⟩]) := by
        rfl
      rw [hrun] at hpre
      have hinj := Except.ok.inj hpre
      injection hinj with _ h2
      injection h2 with h3 _
      rw [← h3]
      rfl
    refine ⟨_, _, hfin, ?_⟩
    rw [updateBestResult_absent st "/level3" 10 50 hst]
    exact Store.set_same st "/level3" ⟨10, 50⟩
  · obtain ⟨⟨st, sent, hpre, hfin⟩, _⟩ := HandleConnections_finish_key sampleCodec
      countingSource countingSource_inBounds Store.empty []
      ⟨"finish", [("clicks", FieldValue.num 10), ("time", FieldValue.num 50)]⟩ 10 50 rfl rfl
    have hkey : lastStartPath sampleCodec ([] : List (ClientMessage Payload)) = "" := rfl
    rw [hkey] at hpre hfin
    have hst : st "" = none := by
      have hinj := Except.ok.inj hpre
      injection hinj with _ h2
      injection h2 with h3 _
      rw [← h3]
      rfl
    refine ⟨_, _, hfin, ?_⟩
    rw [updateBestResult_absent st "" 10 50 hst]
    exact Store.set_same st "" ⟨10, 50⟩

/-! ## Bounds and frame of the store update -/

theorem updateBestResult_fst_le (results : Store) (path : String) (clicks time : Int) :
    (updateBestResult results path clicks time).1 ≤ clicks := by
  cases h : results path with
  | none => rw [updateBestResult_absent results path clicks time h]
  | some r =>
    by_cases hlt : clicks < r.Clicks
    · rw [updateBestResult_better results path clicks time r h hlt]
    · rw [updateBestResult_keep results path clicks time r h hlt]
      exact not_lt.mp hlt

theorem updateBestResult_other (results : Store) (path : String) (clicks time : Int)
    (other : String) (hne : other ≠ path) :
    (updateBestResult results path clicks time).2 other = results other := by
  cases h : results path with
  | none =>
    rw [updateBestResult_absent results path clicks time h]
    simp [Store.set, hne]
  | some r =>
    by_cases hlt : clicks < r.Clicks
    · rw [updateBestResult_better results path clicks time r h hlt]
      simp [Store.set, hne]
    · rw [updateBestResult_keep results path clicks time r h hlt]

theorem updateBestResult_present (results : Store) (path : String) (clicks time : Int) :
    (updateBestResult results path clicks time).2 path ≠ none := by
  have h := storedClicks_updateBestResult results path clicks time
  intro hnone
  rw [storedClicks, hnone] at h
  cases h

theorem updateBestResult_keeps_keys (results : Store) (path : String) (clicks time : Int)
    (k : String) (hk : results k ≠ none) :
    (updateBestResult results path clicks time).2 k ≠ none := by
  by_cases hkp : k = path
  · rw [hkp]
    exact updateBestResult_present results path clicks time
  · rw [updateBestResult_other results path clicks time k hkp]
    exact hk

/-- One handler step that returns leaves every key of the store in place. -/
theorem handleMessage_keeps_keys {ρ σ : Type} (C : Codec ρ) (R : Rand σ) (gamePath : String)
    (results : Store) (msg : ClientMessage ρ) (g : String) (st : Store)
    (sent : List Response)
    (h : handleMessage C R gamePath results msg = Except.ok (g, st, sent))
    (k : String) (hk : results k ≠ none) : st k ≠ none := by
  have hsame : ∀ (g' : String) (sent' : List Response),
      handleMessage C R gamePath results msg = Except.ok (g', results, sent') →
      st k ≠ none := by
    intro g' sent' h'
    rw [h'] at h
    have hinj := Except.ok.inj h
    injection hinj with _ h2
    injection h2 with h3 _
    rw [← h3]
    exact hk
  by_cases hs : msg.State = "start"
  · cases hdec : C.unmarshalStart msg.Data with
    | none => exact hsame _ _ (handleMessage_of_start_undecoded C R gamePath results msg hs hdec)
    | some data =>
      cases hgen : generateCardVariation R data.Path with
      | error e =>
        unfold handleMessage at h
        rw [if_pos hs, hdec] at h
        simp only [bind, Except.bind, hgen] at h
        cases h
      | ok variation =>
        exact hsame _ _
          (handleMessage_of_start_decoded C R gamePath results msg data variation hs hdec hgen)
  · by_cases hf : msg.State = "finish"
    · cases hdec : C.unmarshalFinish msg.Data with
      | none => exact hsame _ _ (handleMessage_of_finish_undecoded C R gamePath results msg hf hdec)
      | some data =>
        rw [handleMessage_of_finish_decoded C R gamePath results msg data hf hdec] at h
        have hinj := Except.ok.inj h
        injection hinj with _ h2
        injection h2 with h3 _
        rw [← h3]
        exact updateBestResult_keeps_keys results gamePath data.Clicks data.Time k hk
    · exact hsame _ _ (handleMessage_other C R gamePath results msg hs hf)

/-- A run of the handler loop that returns leaves every key of the store in place. -/
theorem handleLoop_keeps_keys {ρ σ : Type} (C : Codec ρ) (R : Rand σ)
    (msgs : List (ClientMessage ρ)) :
    ∀ (gamePath : String) (results : Store) (g : String) (st : Store)
      (sent : List Response),
      handleLoop C R gamePath results msgs = Except.ok (g, st, sent) →
      ∀ k : String, results k ≠ none → st k ≠ none := by
  induction msgs with
  | nil =>
    intro gamePath results g st sent h k hk
    have hinj : (gamePath, results, ([] : List Response)) = (g, st, sent) := Except.ok.inj h
    injection hinj with _ h2
    injection h2 with h3 _
    rw [← h3]
    exact hk
  | cons x xs ih =>
    intro gamePath results g st sent h k hk
    cases hx : handleMessage C R gamePath results x with
    | error e =>
      rw [handleLoop, hx] at h
      cases h
    | ok v =>
      obtain ⟨ga, sa, ta⟩ := v
      have hka := handleMessage_keeps_keys C R gamePath results x ga sa ta hx k hk
      cases hxs : handleLoop C R ga sa xs with
      | error e =>
        rw [handleLoop, hx] at h
        simp only [bind, Except.bind] at h
        rw [hxs] at h
        cases h
      | ok w =>
        obtain ⟨gb, sb, tb⟩ := w
        rw [handleLoop_cons_ok C R gamePath results x xs ga gb sa sb ta tb hx hxs] at h
        have hinj := Except.ok.inj h
        injection hinj with _ h2
        injection h2 with h3 _
        rw [← h3]
        exact ih ga sa gb sb tb hxs k hka

/-- C18: the value `updateBestResult(level, clicks, time)` returns is at most the
submitted clicks and, when the level already had an entry, at most the clicks stored
before; hence in the `"result"` message of every well-formed `"finish"` the best
reported, rendered first, is at most the submitted result, rendered second. -/
theorem updateBestResult_le (results : Store) (path : String) (clicks time : Int) :
    (updateBestResult results path clicks time).1 ≤ clicks
    ∧ (∀ r, results path = some r → (updateBestResult results path clicks time).1 ≤ r.Clicks)
    ∧ (∀ {ρ σ : Type} (C : Codec ρ) (R : Rand σ) (msg : ClientMessage ρ),
        msg.State = "finish" → C.unmarshalFinish msg.Data = some ⟨clicks, time⟩ →
        ∃ best : Int, best ≤ clicks
          ∧ handleMessage C R path results msg
            = Except.ok (path, (updateBestResult results path clicks time).2,
                [⟨"result", ResponseData.resultScore
                  ⟨"best result is " ++ toString best ++ " and your result is "
                    ++ toString clicks⟩⟩])) := by
  have hle := updateBestResult_fst_le results path clicks time
  refine ⟨hle, ?_, ?_⟩
  · intro r h
    by_cases hlt : clicks < r.Clicks
    · rw [updateBestResult_better results path clicks time r h hlt]
      exact le_of_lt hlt
    · rw [updateBestResult_keep results path clicks time r h hlt]
  · intro ρ σ C R msg hstate hdec
    exact ⟨(updateBestResult results path clicks time).1, hle,
      handleMessage_of_finish_decoded C R path results msg ⟨clicks, time⟩ hstate hdec⟩

/-- C19: a call `updateBestResult(level, clicks, time)` leaves the entry of every other
level identifier as it was (absent stays absent, present stays equal), the entry for
`level` is present after the call, and no key is removed: by the call, by a handler
step, or by a whole run of the handler loop. -/
theorem updateBestResult_frame (results : Store) (path : String) (clicks time : Int) :
    (∀ other : String, other ≠ path →
        (updateBestResult results path clicks time).2 other = results other)
    ∧ (updateBestResult results path clicks time).2 path ≠ none
    ∧ (∀ k : String, results k ≠ none →
        (updateBestResult results path clicks time).2 k ≠ none)
    ∧ (∀ {ρ σ : Type} (C : Codec ρ) (R : Rand σ) (gamePath : String)
        (msgs : List (ClientMessage ρ)) (g : String) (st : Store) (sent : List Response),
        handleLoop C R gamePath results msgs = Except.ok (g, st, sent) →
        ∀ k : String, results k ≠ none → st k ≠ none) := by
  refine ⟨?_, updateBestResult_present results path clicks time, ?_, ?_⟩
  · intro other hne
    exact updateBestResult_other results path clicks time other hne
  · intro k hk
    exact updateBestResult_keeps_keys results path clicks time k hk
  · intro ρ σ C R gamePath msgs g st sent h k hk
    exact handleLoop_keeps_keys C R msgs gamePath results g st sent h k hk

/-! ## Seed collisions -/

theorem wrapInt64_add_wrap (a x : Int) : wrapInt64 (wrapInt64 a + x) = wrapInt64 (a + x) := by
  unfold wrapInt64
  omega

/-- The seed loop computes the `int64` reduction of the exact sum, whatever its size. -/
theorem sumRunes_eq_wrap (m : Nat) (hm : 0 < m) :
    ∀ (runes : List Char) (a : Int),
      sumRunes (m : Int) runes (wrapInt64 a)
        = Except.ok (wrapInt64 (a + ((runes.map (fun c => c.toNat % m)).sum : Nat))) := by
  intro runes
  induction runes with
  | nil => intro a; simp [sumRunes]
  | cons c rest ih =>
    intro a
    have htmod : Int.tmod (c.toNat : Int) (m : Int) = ((c.toNat % m : Nat) : Int) := by
      rw [Int.tmod_eq_emod (by omega) (by omega)]
      omega
    rw [sumRunes, if_neg (by omega), htmod, wrapInt64_add_wrap, ih]
    simp [List.sum_cons, Int.add_assoc]

theorem StringToInt64_eq_wrap (line : String) :
    StringToInt64 line = Except.ok (wrapInt64 (seedSum line)) := by
  unfold StringToInt64 seedSum
  by_cases h0 : line.data.length = 0
  · have hnil := List.length_eq_zero.mp h0
    rw [hnil]
    simp [sumRunes, wrapInt64]
  · have h := sumRunes_eq_wrap line.data.length (by omega) line.data 0
    have hz : wrapInt64 0 = 0 := by decide
    rw [hz] at h
    simpa using h

theorem seedSum_perm (p₁ p₂ : String) (hperm : p₁.data.Perm p₂.data) :
    seedSum p₁ = seedSum p₂ := by
  unfold seedSum
  rw [hperm.length_eq]
  have := (hperm.map (fun c => c.toNat % p₂.data.length)).sum_eq
  rw [this]

theorem sum_map_mod_le_length (m : Nat) (hm : 0 < m) (runes : List Char) :
    (runes.map (fun c => c.toNat % m)).sum ≤ runes.length * (m - 1) := by
  induction runes with
  | nil => simp
  | cons c rest ih =>
    have hmod : c.toNat % m < m := Nat.mod_lt _ hm
    rw [List.map_cons, List.sum_cons, List.length_cons, Nat.succ_mul]
    omega

theorem seedSum_bounds (line : String) :
    0 ≤ seedSum line ∧ seedSum line ≤ (line.length : Int) * ((line.length : Int) - 1) := by
  unfold seedSum
  refine ⟨Int.natCast_nonneg _, ?_⟩
  have hlen : line.length = line.data.length := rfl
  rw [hlen]
  by_cases h0 : line.data.length = 0
  · have hnil := List.length_eq_zero.mp h0
    rw [hnil]
    simp
  · have h := sum_map_mod_le_length line.data.length (by omega) line.data
    have hcast : ((line.data.length * (line.data.length - 1) : Nat) : Int)
        = (line.data.length : Int) * ((line.data.length : Int) - 1) := by
      rw [Nat.cast_mul, Nat.cast_sub (by omega)]
      simp
    rw [← hcast]
    exact_mod_cast h

theorem seedSum_single (line : String) (h : line.length = 1) : seedSum line = 0 := by
  have hlen : line.data.length = 1 := h
  unfold seedSum
  rw [hlen]
  simp [Nat.mod_one]

/-- C20: `StringToInt64` does not depend on the order of the identifier's code points,
so two identifiers that are anagrams of each other get the same seed and the same card
layout; for an identifier of `n` code points the seed lies in `[0, n·(n−1)]` (the sum
being a value of the `int64` result type, as in C9); every identifier of a single code
point has seed `0`, so all of them get the same layout. -/
theorem StringToInt64_collisions (p₁ p₂ : String) (hperm : p₁.data.Perm p₂.data) :
    StringToInt64 p₁ = StringToInt64 p₂
    ∧ (∀ {σ : Type} (R : Rand σ), generateCardVariation R p₁ = generateCardVariation R p₂)
    ∧ (seedSum p₁ < 2 ^ 63 →
        ∃ seed, StringToInt64 p₁ = Except.ok seed ∧ 0 ≤ seed
          ∧ seed ≤ (p₁.length : Int) * ((p₁.length : Int) - 1))
    ∧ (∀ q₁ q₂ : String, q₁.length = 1 → q₂.length = 1 →
        StringToInt64 q₁ = Except.ok 0
        ∧ ∀ {σ : Type} (R : Rand σ),
            generateCardVariation R q₁ = generateCardVariation R q₂) := by
  have hseed : StringToInt64 p₁ = StringToInt64 p₂ := by
    rw [StringToInt64_eq_wrap p₁, StringToInt64_eq_wrap p₂, seedSum_perm p₁ p₂ hperm]
  have hzero : ∀ q : String, q.length = 1 → StringToInt64 q = Except.ok 0 := by
    intro q hq
    rw [StringToInt64_eq_wrap q, seedSum_single q hq]
    decide
  refine ⟨hseed, ?_, ?_, ?_⟩
  · intro σ R
    exact generateCardVariation_congr_seed R p₁ p₂ hseed
  · intro hfit
    obtain ⟨h0, h1⟩ := seedSum_bounds p₁
    have h2 : (2 : Int) ^ 63 = 9223372036854775808 := by norm_num
    rw [h2] at hfit
    refine ⟨seedSum p₁, ?_, h0, h1⟩
    rw [StringToInt64_eq_wrap p₁, wrapInt64_of_range _ h0 hfit]
  · intro q₁ q₂ hq₁ hq₂
    refine ⟨hzero q₁ hq₁, ?_⟩
    intro σ R
    exact generateCardVariation_congr_seed R q₁ q₂ ((hzero q₁ hq₁).trans (hzero q₂ hq₂).symm)

/-- C20 at the anagrams `"/level12"` and `"/level21"`: both have seed 34, within
`[0, 8 · 7]`, and get the same layout from the counting source. -/
theorem StringToInt64_collisions_witness :
    "/level12".data.Perm "/level21".data
    ∧ StringToInt64 "/level12" = Except.ok 34
    ∧ StringToInt64 "/level21" = Except.ok 34
    ∧ generateCardVariation countingSource "/level12"
        = generateCardVariation countingSource "/level21"
    ∧ StringToInt64 "a" = Except.ok 0 :=
  ⟨by decide, by decide, by decide,
    (StringToInt64_collisions "/level12" "/level21" (by decide)).2.1 countingSource,
    ((StringToInt64_collisions "/level12" "/level21" (by decide)).2.2.2 "a" "b"
      (by decide) (by decide)).1⟩

/-! ## Index safety of the generator -/

theorem swapIndices_length {σ : Type} (R : Rand σ) :
    ∀ (i : Nat) (r : σ), (swapIndices R i r).length = i := by
  intro i
  induction i with
  | zero => intro r; rfl
  | succ i ih => intro r; simp [swapIndices, ih]

/-- The `k`-th swap of a loop entered at `i` runs with loop variable `i - k`. -/
theorem swapIndices_loop_variable {σ : Type} (R : Rand σ) :
    ∀ (i : Nat) (r : σ) (k : Nat), k < i →
      ((swapIndices R i r).map Prod.fst)[k]? = some (((i - k : Nat)) : Int) := by
  intro i
  induction i with
  | zero => intro r k hk; omega
  | succ i ih =>
    intro r k hk
    cases k with
    | zero => simp [swapIndices]
    | succ j =>
      have := ih (R.draw r (((i + 1 : Nat) : Int) + 1)).2 j (by omega)
      simpa [swapIndices] using this

/-- With an in-bounds source every swap of a loop entered at `i` uses a loop variable in
`[1, i]` and a drawn index in `[0, loop variable]`. -/
theorem swapIndices_bounds {σ : Type} (R : Rand σ) (hR : R.InBounds) :
    ∀ (i : Nat) (r : σ), ∀ p ∈ swapIndices R i r,
      1 ≤ p.1 ∧ p.1 ≤ (i : Int) ∧ 0 ≤ p.2 ∧ p.2 ≤ p.1 := by
  intro i
  induction i with
  | zero => intro r p hp; simp [swapIndices] at hp
  | succ i ih =>
    intro r p hp
    rw [swapIndices] at hp
    rcases List.mem_cons.mp hp with hp | hp
    · obtain ⟨h0, h1⟩ := hR r (((i + 1 : Nat) : Int) + 1) (by omega)
      subst hp
      refine ⟨by omega, le_refl _, h0, ?_⟩
      show (R.draw r (((i + 1 : Nat) : Int) + 1)).1 ≤ ((i + 1 : Nat) : Int)
      omega
    · obtain ⟨a, b, c, d⟩ := ih _ p hp
      refine ⟨a, ?_, c, d⟩
      have : ((i : Nat) : Int) ≤ ((i + 1 : Nat) : Int) := by omega
      omega

/-- The shuffle loop is the run of `swap` over `swapIndices`, in order. -/
theorem shuffle_eq_swaps {σ : Type} (R : Rand σ) :
    ∀ (i : Nat) (r : σ) (variation : List Int),
      (shuffle R i r variation).map Prod.fst
        = (swapIndices R i r).foldlM (fun v p => swap v p.1 p.2) variation := by
  intro i
  induction i with
  | zero => intro r variation; rfl
  | succ i ih =>
    intro r variation
    have hpos : (0 : Int) < ((i + 1 : Nat) : Int) + 1 := by omega
    rw [shuffle, Rand.Intn_of_pos R r _ hpos, swapIndices, List.foldlM_cons]
    simp only [bind, Except.bind]
    cases hsw : swap variation ((i + 1 : Nat) : Int)
        (R.draw r (((i + 1 : Nat) : Int) + 1)).1 with
    | error e => rfl
    | ok v => exact ih _ v

/-- C17: for a non-empty identifier and a source with `0 ≤ Intn(n) < n`, the generator
makes no out-of-range access and returns: the index into the `{6, 8, 12}` table is in
`[0, 3)` and the lookup succeeds; the shuffle is the run of exactly `len - 1` swaps, the
`k`-th with loop variable `len - 1 - k` (from `len - 1` down to `1`), and at every swap
both indices, the loop variable and the drawn `Intn(i + 1)`, lie in `[0, len)`. -/
theorem generateCardVariation_index_safe {σ : Type} (R : Rand σ) (hR : R.InBounds)
    (path : String) (_hpath : path ≠ "") :
    ∃ seed count half r out,
      StringToInt64 path = Except.ok seed
      ∧ 0 ≤ (R.draw (R.NewSource seed) (countVar.length : Int)).1
      ∧ (R.draw (R.NewSource seed) (countVar.length : Int)).1 < 3
      ∧ index countVar (R.draw (R.NewSource seed) (countVar.length : Int)).1
          = Except.ok count
      ∧ halfSet R path = Except.ok (half, r)
      ∧ generateCardVariation R path = Except.ok out
      ∧ (swapIndices R (out.length - 1) r).foldlM (fun v p => swap v p.1 p.2) (half ++ half)
          = Except.ok out
      ∧ (swapIndices R (out.length - 1) r).length = out.length - 1
      ∧ (∀ k : Nat, k < out.length - 1 →
          ((swapIndices R (out.length - 1) r).map Prod.fst)[k]?
            = some (((out.length - 1 - k : Nat)) : Int))
      ∧ ∀ p ∈ swapIndices R (out.length - 1) r,
          0 ≤ p.1 ∧ p.1 < (out.length : Int) ∧ 0 ≤ p.2 ∧ p.2 < (out.length : Int) := by
  obtain ⟨seed, hseed⟩ := StringToInt64_ok path
  obtain ⟨half, r, out, hhalf, hout, hperm, hlen, _⟩ := generateCardVariation_ok R hR path
  have hpos : (0 : Int) < (countVar.length : Int) := by decide
  obtain ⟨h0, h1⟩ := hR (R.NewSource seed) (countVar.length : Int) hpos
  have hthree : ((countVar.length : Nat) : Int) = 3 := by decide
  have h3 := lt_of_lt_of_eq h1 hthree
  have hcases : (R.draw (R.NewSource seed) (countVar.length : Int)).1 = 0
      ∨ (R.draw (R.NewSource seed) (countVar.length : Int)).1 = 1
      ∨ (R.draw (R.NewSource seed) (countVar.length : Int)).1 = 2 := by omega
  have hidx : ∃ count, index countVar (R.draw (R.NewSource seed) (countVar.length : Int)).1
      = Except.ok count := by
    rcases hcases with hc | hc | hc <;> rw [hc]
    · exact ⟨6, by decide⟩
    · exact ⟨8, by decide⟩
    · exact ⟨12, by decide⟩
  obtain ⟨count, hcount⟩ := hidx
  have hl : out.length = (half ++ half).length := hperm.length_eq
  have hlpos : 0 < out.length := by
    rw [hl, List.length_append]
    omega
  have hswaps : (swapIndices R (out.length - 1) r).foldlM (fun v p => swap v p.1 p.2)
      (half ++ half) = Except.ok out := by
    rw [← shuffle_eq_swaps R (out.length - 1) r (half ++ half)]
    have hgen := hout
    unfold generateCardVariation at hgen
    rw [hhalf] at hgen
    simp only [bind, Except.bind] at hgen
    rw [hl]
    cases hsh : shuffle R ((half ++ half).length - 1) r (half ++ half) with
    | error e =>
      rw [hsh] at hgen
      cases hgen
    | ok v =>
      rw [hsh] at hgen
      have hv : v.1 = out := Except.ok.inj hgen
      rw [← hv]
      rfl
  refine ⟨seed, count, half, r, out, hseed, h0, h3, hcount, hhalf, hout, hswaps,
    swapIndices_length R _ r, ?_, ?_⟩
  · intro k hk
    exact swapIndices_loop_variable R (out.length - 1) r k hk
  · intro p hp
    obtain ⟨a, b, c, d⟩ := swapIndices_bounds R hR (out.length - 1) r p hp
    have hcast : (((out.length - 1 : Nat)) : Int) = (out.length : Int) - 1 := by omega
    rw [hcast] at b
    refine ⟨by omega, by omega, c, by omega⟩

/-- C17 at `"/level3"` with the counting source: a layout of length 8 shuffled by the
seven swaps `(7, 6), (6, 3), (5, 2), (4, 3), (3, 2), (2, 2), (1, 0)`. -/
theorem generateCardVariation_index_safe_witness :
    countingSource.InBounds ∧ "/level3" ≠ ""
    ∧ halfSet countingSource "/level3" = Except.ok ([1, 2, 3, 4], 30)
    ∧ swapIndices countingSource 7 30
        = [(7, 6), (6, 3), (5, 2), (4, 3), (3, 2), (2, 2), (1, 0)]
    ∧ ∃ seed count half r out,
      StringToInt64 "/level3" = Except.ok seed
      ∧ 0 ≤ (countingSource.draw (countingSource.NewSource seed) (countVar.length : Int)).1
      ∧ (countingSource.draw (countingSource.NewSource seed) (countVar.length : Int)).1 < 3
      ∧ index countVar
          (countingSource.draw (countingSource.NewSource seed) (countVar.length : Int)).1
          = Except.ok count
      ∧ halfSet countingSource "/level3" = Except.ok (half, r)
      ∧ generateCardVariation countingSource "/level3" = Except.ok out
      ∧ (swapIndices countingSource (out.length - 1) r).foldlM
          (fun v p => swap v p.1 p.2) (half ++ half) = Except.ok out
      ∧ (swapIndices countingSource (out.length - 1) r).length = out.length - 1
      ∧ (∀ k : Nat, k < out.length - 1 →
          ((swapIndices countingSource (out.length - 1) r).map Prod.fst)[k]?
            = some (((out.length - 1 - k : Nat)) : Int))
      ∧ ∀ p ∈ swapIndices countingSource (out.length - 1) r,
          0 ≤ p.1 ∧ p.1 < (out.length : Int) ∧ 0 ≤ p.2 ∧ p.2 < (out.length : Int) :=
  ⟨countingSource_inBounds, by decide, by decide, by decide,
    generateCardVariation_index_safe countingSource countingSource_inBounds "/level3"
      (by decide)⟩

end FindThePair
